import Mathlib

/-!
# Control-flow execution engine for a dataflow graph of operators

A verification development of the control-flow semantics demonstrated in
`caffe2/python/tutorials/Control_Ops.ipynb`: scoped blob visibility,
conditional (`If`) and loop (`While`) execution, and reverse-mode gradient
computation over an execution trace.

The repository itself only contains the tutorial notebook (graph-building
calls and printed results); the engine it drives lives outside the
repository.  Following the specification, the engine is therefore modelled
here from the spec's component design (Value Store, Conditional Executor,
Loop Executor, Gradient Engine) and from the scoping rules the notebook
states for NetBuilder blocks.  Tensor values are modelled as scalars in `ℚ`
(every value appearing in the notebook is an exact decimal).
-/

namespace ControlOps

set_option maxHeartbeats 4000000

/-- Modelled from the spec: a binding frame of the Value Store, a mapping
from names to values.  The spec's Value Store is "a mapping from name →
value" with a parent pointer; a frame is one node of that chain. -/
abbrev Frame := List (String × ℚ)

/-- Modelled from the spec: a scope chain, innermost frame first.  The
parent pointer of the spec's Value Store is the tail of the list. -/
abbrev Scopes := List Frame

/-- Lookup of a name in a single frame. -/
def lookupF (n : String) : Frame → Option ℚ
  | [] => none
  | (m, v) :: f => if m = n then some v else lookupF n f

/-- In-place update of a name in a single frame (no new binding). -/
def setF (n : String) (v : ℚ) : Frame → Frame
  | [] => []
  | (m, w) :: f => if m = n then (m, v) :: f else (m, w) :: setF n v f

/-- Modelled from the spec: lookups resolve first in the local store, then
recursively in the parent. -/
def lookupS (n : String) : Scopes → Option ℚ
  | [] => none
  | f :: σ =>
    match lookupF n f with
    | some v => some v
    | none => lookupS n σ

/-- Modelled from the spec: writes to a name already visible (local or
inherited) update the existing binding in the scope where it was first
introduced; writes to a previously unseen name create a new local binding
in the innermost frame. -/
def setS (n : String) (v : ℚ) : Scopes → Scopes
  | [] => []
  | f :: σ =>
    if (lookupF n f).isSome then setF n v f :: σ
    else if (lookupS n σ).isSome then f :: setS n v σ
    else ((n, v) :: f) :: σ

/-- Errors raised while fetching a result blob from a workspace. -/
inductive FetchErr where
  | notFound
deriving DecidableEq, Repr

/-- Modelled from the spec: `fetch(name) -> value`, fails with NotFound if
the name is not bound in the given scope chain. -/
def fetch (n : String) (σ : Scopes) : Except FetchErr ℚ :=
  match lookupS n σ with
  | some v => .ok v
  | none => .error .notFound

/-- Engine errors: reading a name not visible under the scoping rule, or
exhausting the interpreter's fuel (an always-true loop never terminates;
fuel only bounds the model, not the engine). -/
inductive Err where
  | undefinedInput (n : String)
  | outOfFuel
deriving DecidableEq, Repr

/-- The atomic operators the notebook's examples use.  Comparison
operators produce `1` or `0` (a boolean-convertible scalar, the spec's
Condition Result). -/
inductive Op where
  | const (v : ℚ) (out : String)
  | copy (src dst : String)
  | add (a b out : String)
  | gt (a b out : String)
  | le (a b out : String)
  | lt (a b out : String)
  | pow (src dst : String) (e : ℕ)
deriving DecidableEq, Repr

/-- Modelled from the spec: one entry of the Execution Trace, recording the
operator that ran together with the saved input value its backward step
needs (the spec's per-iteration scope snapshot, restricted to what the
gradient of each operator reads). -/
inductive TapeEntry where
  | constE (out : String)
  | copyE (src dst : String)
  | addE (a b out : String)
  | cmpE (out : String)
  | powE (src dst : String) (e : ℕ) (saved : ℚ)
deriving DecidableEq, Repr

/-- Events of a forward run: executed operators plus control markers
(branch-taken determination, condition evaluations, iteration starts). -/
inductive Event where
  | op (t : TapeEntry)
  | thenTaken
  | elseTaken
  | noBranch
  | condTrue
  | condFalse
  | iterStart
deriving DecidableEq, Repr

/-- A statement of a control-flow graph: an operator, sequencing, a
conditional construct (condition operators, condition blob, then-branch,
optional else-branch), or a loop (condition operators, condition blob,
body). -/
inductive Stmt where
  | skip
  | prim (o : Op)
  | seq (a b : Stmt)
  | ifNet (condOps : List Op) (condBlob : String) (thenBranch : Stmt) (elseBranch : Option Stmt)
  | whileNet (condOps : List Op) (condBlob : String) (body : Stmt)
deriving Repr

/-- Execute one operator against a scope chain, producing the updated
chain and the tape entry the Gradient Engine will consume. -/
def execOp : Op → Scopes → Except Err (Scopes × TapeEntry)
  | .const v out, σ => .ok (setS out v σ, .constE out)
  | .copy src dst, σ =>
    match lookupS src σ with
    | none => .error (.undefinedInput src)
    | some v => .ok (setS dst v σ, .copyE src dst)
  | .add a b out, σ =>
    match lookupS a σ, lookupS b σ with
    | none, _ => .error (.undefinedInput a)
    | some _, none => .error (.undefinedInput b)
    | some x, some y => .ok (setS out (x + y) σ, .addE a b out)
  | .gt a b out, σ =>
    match lookupS a σ, lookupS b σ with
    | none, _ => .error (.undefinedInput a)
    | some _, none => .error (.undefinedInput b)
    | some x, some y => .ok (setS out (if y < x then 1 else 0) σ, .cmpE out)
  | .le a b out, σ =>
    match lookupS a σ, lookupS b σ with
    | none, _ => .error (.undefinedInput a)
    | some _, none => .error (.undefinedInput b)
    | some x, some y => .ok (setS out (if x ≤ y then 1 else 0) σ, .cmpE out)
  | .lt a b out, σ =>
    match lookupS a σ, lookupS b σ with
    | none, _ => .error (.undefinedInput a)
    | some _, none => .error (.undefinedInput b)
    | some x, some y => .ok (setS out (if x < y then 1 else 0) σ, .cmpE out)
  | .pow src dst e, σ =>
    match lookupS src σ with
    | none => .error (.undefinedInput src)
    | some x => .ok (setS dst (x ^ e) σ, .powE src dst e x)

/-- Execute an operator sequence in order (the spec's Operator Sequence:
strictly ordered, no reordering). -/
def runOps : List Op → Scopes → Except Err (Scopes × List Event)
  | [], σ => .ok (σ, [])
  | o :: os, σ =>
    match execOp o σ with
    | .error e => .error e
    | .ok (σ1, t) =>
      match runOps os σ1 with
      | .error e => .error e
      | .ok (σ2, ts) => .ok (σ2, Event.op t :: ts)

/-- Modelled from the spec: one fuel level of the engine.  `rec` is the
engine at the next-smaller fuel, invoked for each further loop unfolding.

* Conditional Executor (§4.2): evaluate the condition operators in the
  current block, read the condition blob, create exactly one child scope
  for the taken branch only, execute it there, dispose the child scope
  (write-through to pre-existing bindings survives the disposal).  With no
  else-branch and a false condition, nothing runs.
* Loop Executor (§4.3): evaluate the condition sequence in a child scope
  chained from the enclosing scope (its writes to pre-existing names
  persist), read the condition blob before disposing that scope; if true,
  run the body in its own fresh child scope, dispose it, and continue. -/
def execAux (rec : Stmt → Scopes → Except Err (Scopes × List Event)) :
    Stmt → Scopes → Except Err (Scopes × List Event)
  | .skip, σ => .ok (σ, [])
  | .prim o, σ =>
    match execOp o σ with
    | .error e => .error e
    | .ok (σ1, t) => .ok (σ1, [Event.op t])
  | .seq a b, σ =>
    match execAux rec a σ with
    | .error e => .error e
    | .ok (σ1, t1) =>
      match execAux rec b σ1 with
      | .error e => .error e
      | .ok (σ2, t2) => .ok (σ2, t1 ++ t2)
  | .ifNet co cb tB eB, σ =>
    match runOps co σ with
    | .error e => .error e
    | .ok (σc, tc) =>
      match lookupS cb σc with
      | none => .error (.undefinedInput cb)
      | some c =>
        if c ≠ 0 then
          match execAux rec tB ([] :: σc) with
          | .error e => .error e
          | .ok (σt, tt) => .ok (σt.tail, tc ++ Event.thenTaken :: tt)
        else
          match eB with
          | some eS =>
            match execAux rec eS ([] :: σc) with
            | .error e => .error e
            | .ok (σe, te) => .ok (σe.tail, tc ++ Event.elseTaken :: te)
          | none => .ok (σc, tc ++ [Event.noBranch])
  | .whileNet co cb body, σ =>
    match runOps co ([] :: σ) with
    | .error e => .error e
    | .ok (σc, tc) =>
      match lookupS cb σc with
      | none => .error (.undefinedInput cb)
      | some c =>
        if c ≠ 0 then
          match execAux rec body ([] :: σc.tail) with
          | .error e => .error e
          | .ok (σb, tb) =>
            match rec (.whileNet co cb body) σb.tail with
            | .error e => .error e
            | .ok (σr, tr) =>
              .ok (σr, tc ++ Event.condTrue :: Event.iterStart :: tb ++ tr)
        else .ok (σc.tail, tc ++ [Event.condFalse])

/-- The engine: fuel-indexed execution of a statement against a scope
chain.  Fuel only bounds the number of loop unfoldings the model will
follow; the spec's engine has no iteration cap. -/
def exec : ℕ → Stmt → Scopes → Except Err (Scopes × List Event)
  | 0, _, _ => .error .outOfFuel
  | fuel + 1, st, σ => execAux (exec fuel) st σ

/-- Scope of a successful run (`[]` for a failed one). -/
def resultScope (r : Except Err (Scopes × List Event)) : Scopes :=
  match r with
  | .ok (σ, _) => σ
  | .error _ => []

/-- Trace of a successful run (`[]` for a failed one). -/
def resultTrace (r : Except Err (Scopes × List Event)) : List Event :=
  match r with
  | .ok (_, tr) => tr
  | .error _ => []

/-- Did the run complete without error? -/
def isOk (r : Except Err (Scopes × List Event)) : Bool :=
  match r with
  | .ok _ => true
  | .error _ => false

/-- The gradient tape of a trace: the operators that actually executed
forward, in execution order. -/
def tapeOf (tr : List Event) : List TapeEntry :=
  tr.filterMap fun e =>
    match e with
    | .op t => some t
    | _ => none

/-- Gradient maps assign every name an accumulated gradient, zero by
default. -/
def gradUpd (g : String → ℚ) (n : String) (v : ℚ) : String → ℚ :=
  fun m => if m = n then v else g m

/-- Modelled from the spec: one reverse step of the Gradient Engine.  The
entry's output gradient is consumed (the output is overwritten going
forward, so its incoming gradient is claimed exactly once) and the chain
rule adds the contribution to the input's gradient.  Comparisons and
constants propagate no gradient. -/
def backStep (g : String → ℚ) : TapeEntry → (String → ℚ)
  | .constE out => gradUpd g out 0
  | .copyE src dst =>
    let d := g dst
    let g1 := gradUpd g dst 0
    gradUpd g1 src (g1 src + d)
  | .addE a b out =>
    let d := g out
    let g1 := gradUpd g out 0
    let g2 := gradUpd g1 a (g1 a + d)
    gradUpd g2 b (g2 b + d)
  | .cmpE out => gradUpd g out 0
  | .powE src dst e x =>
    let d := g dst
    let g1 := gradUpd g dst 0
    gradUpd g1 src (g1 src + (e : ℚ) * x ^ (e - 1) * d)

/-- Modelled from the spec: the Gradient Engine replays the forward trace
in reverse order, running one backward step per recorded forward step. -/
def backprop (tape : List TapeEntry) (g : String → ℚ) : String → ℚ :=
  tape.foldr (fun t h => backStep h t) g

/-- Gradient of `n` with respect to output `out` for a finished run: seed
`out ↦ 1` and replay the run's tape backward. -/
def gradAt (r : Except Err (Scopes × List Event)) (out n : String) : ℚ :=
  backprop (tapeOf (resultTrace r)) (gradUpd (fun _ => 0) out 1) n

/-- The `(source, exponent, saved value)` of every power operator on a
tape, in forward execution order: which differentiable branch/iteration
steps actually ran. -/
def powEntries (tape : List TapeEntry) : List (String × ℕ × ℚ) :=
  tape.filterMap fun t =>
    match t with
    | .powE src _ e x => some (src, e, x)
    | _ => none

/-- Count the events of a trace satisfying `p`. -/
def countEvt (p : Event → Bool) (tr : List Event) : ℕ :=
  (tr.filter p).length

/-- Is the event the start of a loop-body iteration? -/
def isIter : Event → Bool
  | .iterStart => true
  | _ => false

/-- Is the event a condition evaluating to true? -/
def isCondTrue : Event → Bool
  | .condTrue => true
  | _ => false

/-! ## The Brew front-end

Brew does not track a block hierarchy: the caller passes an explicit
`external_blobs` partition, and the underlying `Do` operator runs each
branch/body net in a separate inner workspace with blob mappings between
the outer and inner workspaces. -/

/-- Modelled from the spec: the inner workspace of a `Do` operator, seeded
with the current values of the externally-declared blobs. -/
def seedFrame (externals : List String) (σ : Scopes) : Frame :=
  externals.foldr
    (fun n acc =>
      match lookupS n σ with
      | some v => (n, v) :: acc
      | none => acc)
    []

/-- Modelled from the spec: on completion, copy each externally-declared
name's current value from the inner workspace back into the outer scope. -/
def copyBackExternals (externals : List String) (inner outer : Scopes) : Scopes :=
  externals.foldl
    (fun acc n =>
      match lookupS n inner with
      | some v => setS n v acc
      | none => acc)
    outer

/-- Modelled from the spec: Brew's conditional (`brew.cond`): given the
already-computed condition value, run the chosen branch net in a fresh
inner workspace seeded with the external blobs, then write the externals
back and dispose the inner workspace. -/
def brewCond (condVal : ℚ) (thenOps : List Op) (elseOps : Option (List Op))
    (externals : List String) (σ : Scopes) : Except Err Scopes :=
  if condVal ≠ 0 then
    match runOps thenOps [seedFrame externals σ] with
    | .error e => .error e
    | .ok (σin, _) => .ok (copyBackExternals externals σin σ)
  else
    match elseOps with
    | some es =>
      match runOps es [seedFrame externals σ] with
      | .error e => .error e
      | .ok (σin, _) => .ok (copyBackExternals externals σin σ)
    | none => .ok σ

/-- Modelled from the spec: Brew's loop (`brew.loop`): each round runs the
condition net in an inner workspace, writes externals back, reads the
condition blob, and while it is true runs the body net in its own inner
workspace, writing externals back after each iteration. -/
def brewLoop : ℕ → List Op → String → List Op → List String → Scopes →
    Except Err Scopes
  | 0, _, _, _, _, _ => .error .outOfFuel
  | fuel + 1, condOps, cb, bodyOps, externals, σ =>
    match runOps condOps [seedFrame externals σ] with
    | .error e => .error e
    | .ok (σc, _) =>
      match lookupS cb σc with
      | none => .error (.undefinedInput cb)
      | some c =>
        let σ1 := copyBackExternals externals σc σ
        if c ≠ 0 then
          match runOps bodyOps [seedFrame externals σ1] with
          | .error e => .error e
          | .ok (σb, _) =>
            brewLoop fuel condOps cb bodyOps externals
              (copyBackExternals externals σb σ1)
        else .ok σ1

/-- Scope of a successful Brew run (`[]` for a failed one). -/
def brewScope (r : Except Err Scopes) : Scopes :=
  match r with
  | .ok σ => σ
  | .error _ => []

/-! ## The construction-time static check

NetBuilder tracks every operator output seen before the current execution
point in the same block and up the stack of parent blocks, and rejects at
net-construction time any operator whose input is not among them. -/

/-- Add a name to the defined-name set. -/
def insertName (n : String) (D : List String) : List String :=
  if n ∈ D then D else n :: D

/-- Modelled from the spec: the construction-time check for one operator:
its inputs must already be defined, its output becomes defined. -/
def checkOp (D : List String) : Op → Option (List String)
  | .const _ out => some (insertName out D)
  | .copy src dst => if src ∈ D then some (insertName dst D) else none
  | .add a b out => if a ∈ D ∧ b ∈ D then some (insertName out D) else none
  | .gt a b out => if a ∈ D ∧ b ∈ D then some (insertName out D) else none
  | .le a b out => if a ∈ D ∧ b ∈ D then some (insertName out D) else none
  | .lt a b out => if a ∈ D ∧ b ∈ D then some (insertName out D) else none
  | .pow src dst _ => if src ∈ D then some (insertName dst D) else none

/-- The construction-time check over an operator sequence. -/
def checkOps (D : List String) : List Op → Option (List String)
  | [] => some D
  | o :: os =>
    match checkOp D o with
    | none => none
    | some D1 => checkOps D1 os

/-- Modelled from the spec: the construction-time static check over a
statement.  Names first defined inside a branch, a condition block or a
loop body are local to it and dropped on block exit; writes to names
already defined do not change the defined-name set. -/
def checkStmt : Stmt → List String → Option (List String)
  | .skip, D => some D
  | .prim o, D => checkOp D o
  | .seq a b, D =>
    match checkStmt a D with
    | none => none
    | some D1 => checkStmt b D1
  | .ifNet co cb tB eB, D =>
    match checkOps D co with
    | none => none
    | some D1 =>
      if cb ∈ D1 then
        match eB with
        | some eS =>
          match checkStmt tB D1, checkStmt eS D1 with
          | some _, some _ => some D1
          | _, _ => none
        | none =>
          match checkStmt tB D1 with
          | none => none
          | some _ => some D1
      else none
  | .whileNet co cb body, D =>
    match checkOps D co with
    | none => none
    | some D1 =>
      if cb ∈ D1 then
        match checkStmt body D with
        | none => none
        | some _ => some D
      else none

/-! ## The notebook's example programs -/

/-- The first conditional example (notebook cell 5): constants
`zero, one, x = 0.5, y = 0`, then `If (x > zero) { y := one } Else
{ y := zero }`. -/
def ifExample1 : Stmt :=
  .seq (.prim (.const 0 "zero"))
    (.seq (.prim (.const 1 "one"))
      (.seq (.prim (.const (1/2) "x"))
        (.seq (.prim (.const 0 "y"))
          (.ifNet [.gt "x" "zero" "cnd0"] "cnd0"
            (.prim (.copy "one" "y"))
            (some (.prim (.copy "zero" "y")))))))

/-- The nested conditional example (notebook cell 12): `x = 1.5`; the
then-branch defines the block-local `local_blob` and branches again on
`local_blob ≤ one`. -/
def ifExample2 : Stmt :=
  .seq (.prim (.const 0 "zero"))
    (.seq (.prim (.const 1 "one"))
      (.seq (.prim (.const 2 "two"))
        (.seq (.prim (.const (3/2) "x"))
          (.seq (.prim (.const 0 "y"))
            (.ifNet [.gt "x" "zero" "cnd1"] "cnd1"
              (.seq (.prim (.copy "x" "local_blob"))
                (.ifNet [.le "local_blob" "one" "cnd2"] "cnd2"
                  (.prim (.copy "one" "y"))
                  (some (.prim (.copy "two" "y")))))
              (some (.prim (.copy "zero" "y"))))))))

/-- The cell-12 program with the commented-out offending line restored:
the else-branch also reads `local_blob`, which only the sibling
then-branch defines — the construction-time check must reject it. -/
def ifExample2bad : Stmt :=
  .seq (.prim (.const 0 "zero"))
    (.seq (.prim (.const 1 "one"))
      (.seq (.prim (.const 2 "two"))
        (.seq (.prim (.const (3/2) "x"))
          (.seq (.prim (.const 0 "y"))
            (.ifNet [.gt "x" "zero" "cnd1"] "cnd1"
              (.seq (.prim (.copy "x" "local_blob"))
                (.ifNet [.le "local_blob" "one" "cnd2"] "cnd2"
                  (.prim (.copy "one" "y"))
                  (some (.prim (.copy "two" "y")))))
              (some (.seq (.prim (.copy "zero" "y"))
                (.prim (.copy "local_blob" "z")))))))))

/-- The loop example (notebook cell 21): `i = 0, y = 0`; the condition
block increments `i` (through an anonymous constant blob) and continues
while `i ≤ 7`; the body accumulates `y := i + y`. -/
def whileExample : Stmt :=
  .seq (.prim (.const 0 "i"))
    (.seq (.prim (.const 0 "y"))
      (.whileNet
        [.const 1 "t1", .add "i" "t1" "i", .const 7 "t7", .le "i" "t7" "lc"]
        "lc"
        (.prim (.add "i" "y" "y"))))

/-- The backpropagation conditional (notebook cell 31): `z := y ^ 2` when
`x > zero`, else `z := y ^ 3`.  The constant feeds (`x`, `zero`, `one`,
`y = 4`, `z = 0`) are the initial blob store; the engine consumes a
finished graph and a blob store. -/
def gradIfProgram : Stmt :=
  .ifNet [.gt "x" "zero" "cnd"] "cnd"
    (.prim (.pow "y" "z" 2))
    (some (.prim (.pow "y" "z" 3)))

/-- Initial workspace for `gradIfProgram` with the given fed value of
`x`. -/
def gradIfStore (x : ℚ) : Scopes :=
  [[("x", x), ("zero", 0), ("one", 1), ("y", 4), ("z", 0)]]

/-- The backpropagation loop (notebook cell 37): two iterations squaring
`x`, with a nested conditional squaring `y` on the first iteration and
cubing `z` on the second; afterwards `s := (x + y) + z`.  The constant
feeds are the initial blob store. -/
def gradLoopProgram : Stmt :=
  .seq
    (.whileNet [.add "i" "one" "i", .le "i" "two" "lc"] "lc"
      (.seq (.prim (.pow "x" "x" 2))
        (.ifNet [.lt "i" "two" "ic"] "ic"
          (.prim (.pow "y" "y" 2))
          (some (.prim (.pow "z" "z" 3))))))
    (.seq (.prim (.add "x" "y" "x_plus_y"))
      (.prim (.add "x_plus_y" "z" "s")))

/-- Initial workspace for `gradLoopProgram`. -/
def gradLoopStore : Scopes :=
  [[("i", 0), ("one", 1), ("two", 2), ("x", 2), ("y", 3), ("z", 2)]]

/-- Brew version of the first conditional (notebook cell 16): the init net
fills `zero, one, x = 0.5, y = 0` and computes `cond := x > zero`. -/
def brewIfInitOps : List Op :=
  [.const 0 "zero", .const 1 "one", .const (1/2) "x", .const 0 "y",
   .gt "x" "zero" "cond"]

/-- Run of the Brew conditional example: init net, then `brew.cond` with
the explicit `external_blobs` partition of notebook cell 16. -/
def brewIfRun : Except Err Scopes :=
  match runOps brewIfInitOps [[]] with
  | .error e => .error e
  | .ok (σ0, _) =>
    match lookupS "cond" σ0 with
    | none => .error (.undefinedInput "cond")
    | some c =>
      brewCond c [.copy "one" "y"] (some [.copy "zero" "y"])
        ["x", "y", "zero", "one"] σ0

/-- Brew version of the loop (notebook cell 26): init net fills
`i = 0, one = 1, seven = 7, y = 0`. -/
def brewWhileInitOps : List Op :=
  [.const 0 "i", .const 1 "one", .const 7 "seven", .const 0 "y"]

/-- Run of the Brew loop example: init net, then `brew.loop` with the
condition net `i := i + one; cond := i ≤ seven`, body net `y := i + y`,
and the explicit externals of notebook cell 26. -/
def brewWhileRun : Except Err Scopes :=
  match runOps brewWhileInitOps [[]] with
  | .error e => .error e
  | .ok (σ0, _) =>
    brewLoop 20 [.add "i" "one" "i", .le "i" "seven" "cond"] "cond"
      [.add "i" "y" "y"] ["cond", "i", "one", "seven", "y"] σ0

/-! ## Scope-shape invariants

Executing any statement preserves the shape of the scope chain: frames
below the innermost keep exactly their name sets (writes to visible names
update in place, so no frame but the innermost ever gains a binding), the
innermost frame only gains names, and any name it gains was previously
unbound in the whole chain. -/

/-- Two frames bind exactly the same names. -/
def SameDom (f g : Frame) : Prop :=
  ∀ n, (lookupF n f).isSome = (lookupF n g).isSome

/-- Two scope chains have the same length and pointwise equal name
sets. -/
def SameDoms (σ τ : Scopes) : Prop := List.Forall₂ SameDom σ τ

/-- Is the name bound in the innermost frame? -/
def headBound (n : String) : Scopes → Prop
  | [] => False
  | f :: _ => (lookupF n f).isSome = true

/-- The shape relation between a scope chain and the chain an execution
turns it into. -/
def EvolvesTo (σ τ : Scopes) : Prop :=
  σ.length = τ.length ∧ SameDoms σ.tail τ.tail ∧
    (∀ n, headBound n σ → headBound n τ) ∧
    (∀ n, headBound n τ → headBound n σ ∨ lookupS n σ = none)

theorem sameDom_refl (f : Frame) : SameDom f f := fun _ => rfl

theorem sameDom_trans {f g h : Frame} (h1 : SameDom f g) (h2 : SameDom g h) :
    SameDom f h := fun n => (h1 n).trans (h2 n)

theorem sameDoms_refl (σ : Scopes) : SameDoms σ σ := by
  induction σ with
  | nil => exact List.Forall₂.nil
  | cons f σ ih => exact List.Forall₂.cons (sameDom_refl f) ih

theorem sameDoms_trans : ∀ {σ τ υ : Scopes},
    SameDoms σ τ → SameDoms τ υ → SameDoms σ υ
  | [], [], [], _, _ => List.Forall₂.nil
  | _ :: _, _ :: _, _ :: _, List.Forall₂.cons h1 t1, List.Forall₂.cons h2 t2 =>
    List.Forall₂.cons (sameDom_trans h1 h2) (sameDoms_trans t1 t2)

theorem sameDoms_length {σ τ : Scopes} (h : SameDoms σ τ) :
    σ.length = τ.length := h.length_eq

theorem sameDoms_lookup {σ τ : Scopes} (h : SameDoms σ τ) (n : String) :
    (lookupS n σ).isSome = (lookupS n τ).isSome := by
  induction h with
  | nil => rfl
  | @cons f g σ' τ' hd tl ih =>
    simp only [lookupS]
    cases hf : lookupF n f <;> cases hg : lookupF n g
    · exact ih
    · have := hd n
      rw [hf, hg] at this
      simp at this
    · have := hd n
      rw [hf, hg] at this
      simp at this
    · rfl

theorem evolves_refl (σ : Scopes) : EvolvesTo σ σ :=
  ⟨rfl, sameDoms_refl _, fun _ h => h, fun _ h => Or.inl h⟩

theorem evolves_lookup_isSome {σ τ : Scopes} (h : EvolvesTo σ τ) (n : String)
    (hs : (lookupS n σ).isSome = true) : (lookupS n τ).isSome = true := by
  obtain ⟨hlen, htail, hmono, _⟩ := h
  cases σ with
  | nil => simp [lookupS] at hs
  | cons f σt =>
    cases τ with
    | nil => simp at hlen
    | cons g τt =>
      simp only [lookupS] at hs ⊢
      have htail' : SameDoms σt τt := htail
      cases hf : lookupF n f
      · rw [hf] at hs
        simp only at hs
        have : (lookupS n τt).isSome = true := by
          rw [← sameDoms_lookup htail' n]
          exact hs
        cases hg : lookupF n g
        · simpa using this
        · simp
      · have : headBound n (g :: τt) := hmono n (by simp [headBound, hf])
        simp only [headBound] at this
        cases hg : lookupF n g
        · rw [hg] at this
          simp at this
        · simp

theorem evolves_trans {σ τ υ : Scopes} (h1 : EvolvesTo σ τ)
    (h2 : EvolvesTo τ υ) : EvolvesTo σ υ := by
  obtain ⟨l1, t1, m1, f1⟩ := h1
  obtain ⟨l2, t2, m2, f2⟩ := h2
  refine ⟨l1.trans l2, sameDoms_trans t1 t2, fun n hn => m2 n (m1 n hn), ?_⟩
  intro n hn
  rcases f2 n hn with hτ | hτ
  · exact f1 n hτ
  · by_cases hσ : (lookupS n σ).isSome = true
    · have := evolves_lookup_isSome ⟨l1, t1, m1, f1⟩ n hσ
      rw [hτ] at this
      simp at this
    · right
      cases hv : lookupS n σ
      · rfl
      · rw [hv] at hσ
        simp at hσ

theorem evolves_of_sameDoms {σ τ : Scopes} (h : SameDoms σ τ) :
    EvolvesTo σ τ := by
  refine ⟨sameDoms_length h, ?_, ?_, ?_⟩
  · cases h with
    | nil => exact List.Forall₂.nil
    | cons _ tl => exact tl
  · intro n hn
    cases h with
    | nil => exact hn
    | @cons f g σ' τ' hd _ =>
      simp only [headBound] at hn ⊢
      rw [← hd n]
      exact hn
  · intro n hn
    left
    cases h with
    | nil => exact hn
    | @cons f g σ' τ' hd _ =>
      simp only [headBound] at hn ⊢
      rw [hd n]
      exact hn

theorem setF_dom (n : String) (v : ℚ) (f : Frame) (k : String) :
    (lookupF k (setF n v f)).isSome = (lookupF k f).isSome := by
  induction f with
  | nil => rfl
  | cons p f ih =>
    obtain ⟨m, w⟩ := p
    simp only [setF]
    by_cases hm : m = n
    · subst hm
      simp only [if_pos rfl, lookupF]
      by_cases hk : m = k <;> simp [hk]
    · rw [if_neg hm]
      simp only [lookupF]
      by_cases hk : m = k <;> simp [hk, ih]

theorem setS_sameDoms (n : String) (v : ℚ) : ∀ σ : Scopes,
    (lookupS n σ).isSome = true → SameDoms σ (setS n v σ)
  | [], h => by simp [lookupS] at h
  | f :: σt, h => by
    simp only [setS]
    by_cases hf : (lookupF n f).isSome = true
    · rw [if_pos hf]
      exact List.Forall₂.cons (fun k => (setF_dom n v f k).symm) (sameDoms_refl σt)
    · rw [if_neg hf]
      have ht : (lookupS n σt).isSome = true := by
        simp only [lookupS] at h
        cases hlf : lookupF n f
        · rw [hlf] at h
          exact h
        · rw [hlf] at hf
          simp at hf
      rw [if_pos ht]
      exact List.Forall₂.cons (sameDom_refl f) (setS_sameDoms n v σt ht)

theorem setS_length (n : String) (v : ℚ) : ∀ σ : Scopes,
    (setS n v σ).length = σ.length
  | [] => rfl
  | f :: σt => by
    simp only [setS]
    by_cases hf : (lookupF n f).isSome = true
    · rw [if_pos hf]
      simp
    · rw [if_neg hf]
      by_cases ht : (lookupS n σt).isSome = true
      · rw [if_pos ht]
        simp [setS_length n v σt]
      · rw [if_neg ht]
        simp

theorem setS_evolves (n : String) (v : ℚ) (σ : Scopes) :
    EvolvesTo σ (setS n v σ) := by
  cases σ with
  | nil => exact evolves_refl []
  | cons f σt =>
    by_cases hf : (lookupF n f).isSome = true
    · exact evolves_of_sameDoms
        (setS_sameDoms n v (f :: σt) (by simp [lookupS, Option.isSome] at hf ⊢; cases hlf : lookupF n f <;> simp_all))
    · by_cases ht : (lookupS n σt).isSome = true
      · refine evolves_of_sameDoms (setS_sameDoms n v (f :: σt) ?_)
        simp only [lookupS]
        cases hlf : lookupF n f
        · exact ht
        · simp
      · simp only [setS, if_neg hf, if_neg ht]
        refine ⟨by simp, sameDoms_refl σt, ?_, ?_⟩
        · intro k hk
          simp only [headBound, lookupF] at hk ⊢
          by_cases hkn : n = k
          · simp [hkn]
          · rw [if_neg hkn]
            exact hk
        · intro k hk
          simp only [headBound, lookupF] at hk
          by_cases hkn : n = k
          · subst hkn
            right
            simp only [lookupS]
            cases hlf : lookupF n f
            · cases hls : lookupS n σt
              · rfl
              · rw [hls] at ht
                simp at ht
            · rw [hlf] at hf
              simp at hf
          · rw [if_neg hkn] at hk
            left
            exact hk

theorem setS_isSome_mono (n : String) (v : ℚ) (σ : Scopes) (k : String)
    (h : (lookupS k σ).isSome = true) :
    (lookupS k (setS n v σ)).isSome = true :=
  evolves_lookup_isSome (setS_evolves n v σ) k h

theorem lookupF_setF_self (n : String) (v : ℚ) : ∀ f : Frame,
    (lookupF n f).isSome = true → lookupF n (setF n v f) = some v
  | [], h => by simp [lookupF] at h
  | (m, w) :: f, h => by
    simp only [setF]
    by_cases hm : m = n
    · subst hm
      simp [lookupF]
    · rw [if_neg hm]
      simp only [lookupF, if_neg hm] at h ⊢
      exact lookupF_setF_self n v f h

theorem setS_isSome_self (n : String) (v : ℚ) : ∀ σ : Scopes, σ ≠ [] →
    (lookupS n (setS n v σ)).isSome = true
  | [], h => absurd rfl h
  | f :: σt, _ => by
    simp only [setS]
    by_cases hf : (lookupF n f).isSome = true
    · rw [if_pos hf]
      simp [lookupS, lookupF_setF_self n v f hf]
    · rw [if_neg hf]
      by_cases ht : (lookupS n σt).isSome = true
      · rw [if_pos ht]
        simp only [lookupS]
        cases hlf : lookupF n f
        · have : σt ≠ [] := by
            intro hnil
            rw [hnil] at ht
            simp [lookupS] at ht
          have := setS_isSome_self n v σt this
          cases hset : lookupS n (setS n v σt)
          · rw [hset] at this
            simp at this
          · simp
        · simp
      · rw [if_neg ht]
        simp [lookupS, lookupF]

theorem execOp_shape {o : Op} {σ τ : Scopes} {t : TapeEntry}
    (h : execOp o σ = .ok (τ, t)) : ∃ n v, τ = setS n v σ := by
  cases o <;> simp only [execOp] at h <;> (try split at h) <;>
    first
    | exact Except.noConfusion h
    | · injection h with h1
        injection h1 with hσ _
        exact ⟨_, _, hσ.symm⟩

theorem execOp_evolves {o : Op} {σ τ : Scopes} {t : TapeEntry}
    (h : execOp o σ = .ok (τ, t)) : EvolvesTo σ τ := by
  obtain ⟨n, v, rfl⟩ := execOp_shape h
  exact setS_evolves n v σ

theorem runOps_evolves : ∀ (ops : List Op) {σ τ : Scopes} {tr : List Event},
    runOps ops σ = .ok (τ, tr) → EvolvesTo σ τ
  | [], σ, τ, tr, h => by
    simp only [runOps] at h
    injection h with h1
    injection h1 with hσ _
    rw [← hσ]
    exact evolves_refl σ
  | o :: os, σ, τ, tr, h => by
    simp only [runOps] at h
    cases he : execOp o σ with
    | error e => simp [he] at h
    | ok p =>
      obtain ⟨σ1, t⟩ := p
      simp only [he] at h
      cases hr : runOps os σ1 with
      | error e => simp [hr] at h
      | ok q =>
        obtain ⟨σ2, ts⟩ := q
        simp only [hr] at h
        injection h with h1
        injection h1 with hσ _
        rw [← hσ]
        exact evolves_trans (execOp_evolves he) (runOps_evolves os hr)

theorem evolves_pop {f : Frame} {σ τ : Scopes} (h : EvolvesTo (f :: σ) τ) :
    EvolvesTo σ τ.tail := by
  obtain ⟨hlen, htail, _, _⟩ := h
  cases τ with
  | nil => simp at hlen
  | cons g τt => exact evolves_of_sameDoms htail

theorem execAux_evolves
    (rec : Stmt → Scopes → Except Err (Scopes × List Event))
    (hrec : ∀ st σ τ tr, rec st σ = .ok (τ, tr) → EvolvesTo σ τ) :
    ∀ (st : Stmt) (σ τ : Scopes) (tr : List Event),
      execAux rec st σ = .ok (τ, tr) → EvolvesTo σ τ
  | .skip, σ, τ, tr, h => by
    simp only [execAux] at h
    injection h with h1
    injection h1 with hσ _
    rw [← hσ]
    exact evolves_refl σ
  | .prim o, σ, τ, tr, h => by
    simp only [execAux] at h
    cases he : execOp o σ with
    | error e => simp [he] at h
    | ok p =>
      obtain ⟨σ1, t⟩ := p
      simp only [he] at h
      injection h with h1
      injection h1 with hσ _
      rw [← hσ]
      exact execOp_evolves he
  | .seq a b, σ, τ, tr, h => by
    simp only [execAux] at h
    cases ha : execAux rec a σ with
    | error e => simp [ha] at h
    | ok p =>
      obtain ⟨σ1, t1⟩ := p
      simp only [ha] at h
      cases hb : execAux rec b σ1 with
      | error e => simp [hb] at h
      | ok q =>
        obtain ⟨σ2, t2⟩ := q
        simp only [hb] at h
        injection h with h1
        injection h1 with hσ _
        rw [← hσ]
        exact evolves_trans (execAux_evolves rec hrec a σ σ1 t1 ha)
          (execAux_evolves rec hrec b σ1 σ2 t2 hb)
  | .ifNet co cb tB eB, σ, τ, tr, h => by
    simp only [execAux] at h
    cases hco : runOps co σ with
    | error e => simp [hco] at h
    | ok p =>
      obtain ⟨σc, tc⟩ := p
      simp only [hco] at h
      cases hcb : lookupS cb σc with
      | none => simp [hcb] at h
      | some c =>
        simp only [hcb] at h
        have hevc : EvolvesTo σ σc := runOps_evolves co hco
        by_cases hc : c ≠ 0
        · rw [if_pos hc] at h
          cases ht : execAux rec tB ([] :: σc) with
          | error e => simp [ht] at h
          | ok q =>
            obtain ⟨σt, tt⟩ := q
            simp only [ht] at h
            injection h with h1
            injection h1 with hσ _
            rw [← hσ]
            exact evolves_trans hevc
              (evolves_pop (execAux_evolves rec hrec tB ([] :: σc) σt tt ht))
        · rw [if_neg hc] at h
          cases eB with
          | some eS =>
            cases he : execAux rec eS ([] :: σc) with
            | error e => simp [he] at h
            | ok q =>
              obtain ⟨σe, te⟩ := q
              simp only [he] at h
              injection h with h1
              injection h1 with hσ _
              rw [← hσ]
              exact evolves_trans hevc
                (evolves_pop (execAux_evolves rec hrec eS ([] :: σc) σe te he))
          | none =>
            simp only at h
            injection h with h1
            injection h1 with hσ _
            rw [← hσ]
            exact hevc
  | .whileNet co cb body, σ, τ, tr, h => by
    simp only [execAux] at h
    cases hco : runOps co ([] :: σ) with
    | error e => simp [hco] at h
    | ok p =>
      obtain ⟨σc, tc⟩ := p
      simp only [hco] at h
      cases hcb : lookupS cb σc with
      | none => simp [hcb] at h
      | some c =>
        simp only [hcb] at h
        have hevc : EvolvesTo σ σc.tail := evolves_pop (runOps_evolves co hco)
        by_cases hc : c ≠ 0
        · rw [if_pos hc] at h
          cases hb : execAux rec body ([] :: σc.tail) with
          | error e => simp [hb] at h
          | ok q =>
            obtain ⟨σb, tb⟩ := q
            simp only [hb] at h
            cases hr : rec (.whileNet co cb body) σb.tail with
            | error e => simp [hr] at h
            | ok r =>
              obtain ⟨σr, tr2⟩ := r
              simp only [hr] at h
              injection h with h1
              injection h1 with hσ _
              rw [← hσ]
              exact evolves_trans hevc
                (evolves_trans
                  (evolves_pop (execAux_evolves rec hrec body ([] :: σc.tail) σb tb hb))
                  (hrec _ _ _ _ hr))
        · rw [if_neg hc] at h
          injection h with h1
          injection h1 with hσ _
          rw [← hσ]
          exact hevc

theorem exec_evolves : ∀ (fuel : ℕ) (st : Stmt) (σ τ : Scopes) (tr : List Event),
    exec fuel st σ = .ok (τ, tr) → EvolvesTo σ τ
  | 0, st, σ, τ, tr, h => by simp [exec] at h
  | fuel + 1, st, σ, τ, tr, h =>
    execAux_evolves (exec fuel) (exec_evolves fuel) st σ τ tr h

theorem evolves_push {σ τ : Scopes} (h : EvolvesTo ([] :: σ) τ) :
    ∃ g τt, τ = g :: τt ∧ SameDoms σ τt ∧
      ∀ n, (lookupF n g).isSome = true → lookupS n σ = none := by
  obtain ⟨hlen, htail, _, hfresh⟩ := h
  cases τ with
  | nil => simp at hlen
  | cons g τt =>
    refine ⟨g, τt, rfl, htail, fun n hn => ?_⟩
    rcases hfresh n (by simp [headBound, hn]) with hb | hb
    · simp [headBound, lookupF] at hb
    · simpa [lookupS, lookupF] using hb

theorem while_doms : ∀ (fuel : ℕ) (co : List Op) (cb : String) (body : Stmt)
    (σ τ : Scopes) (tr : List Event),
    exec fuel (.whileNet co cb body) σ = .ok (τ, tr) → SameDoms σ τ
  | 0, co, cb, body, σ, τ, tr, h => by simp [exec] at h
  | fuel + 1, co, cb, body, σ, τ, tr, h => by
    simp only [exec, execAux] at h
    cases hco : runOps co ([] :: σ) with
    | error e => simp [hco] at h
    | ok p =>
      obtain ⟨σc, tc⟩ := p
      simp only [hco] at h
      cases hcb : lookupS cb σc with
      | none => simp [hcb] at h
      | some c =>
        simp only [hcb] at h
        have hpush := evolves_push (runOps_evolves co hco)
        obtain ⟨g, τt, hτ, hsd, _⟩ := hpush
        have hsd' : SameDoms σ σc.tail := by
          rw [hτ]
          exact hsd
        by_cases hc : c ≠ 0
        · rw [if_pos hc] at h
          cases hb : execAux (exec fuel) body ([] :: σc.tail) with
          | error e => simp [hb] at h
          | ok q =>
            obtain ⟨σb, tb⟩ := q
            simp only [hb] at h
            cases hr : exec fuel (.whileNet co cb body) σb.tail with
            | error e => simp [hr] at h
            | ok r =>
              obtain ⟨σr, tr2⟩ := r
              simp only [hr] at h
              injection h with h1
              injection h1 with hσ _
              rw [← hσ]
              have hb' : EvolvesTo ([] :: σc.tail) σb :=
                execAux_evolves (exec fuel) (exec_evolves fuel) body
                  ([] :: σc.tail) σb tb hb
              obtain ⟨g2, τt2, hτ2, hsd2, _⟩ := evolves_push hb'
              have hsd2' : SameDoms σc.tail σb.tail := by
                rw [hτ2]
                exact hsd2
              exact sameDoms_trans hsd'
                (sameDoms_trans hsd2' (while_doms fuel co cb body σb.tail σr tr2 hr))
        · rw [if_neg hc] at h
          injection h with h1
          injection h1 with hσ _
          rw [← hσ]
          exact hsd'

/-! ## Trace counting: the body never runs more often than the condition
evaluates to true -/

theorem countEvt_append (p : Event → Bool) (a b : List Event) :
    countEvt p (a ++ b) = countEvt p a + countEvt p b := by
  simp [countEvt, List.filter_append]

theorem countEvt_cons (p : Event → Bool) (x : Event) (l : List Event) :
    countEvt p (x :: l) = (if p x then 1 else 0) + countEvt p l := by
  by_cases hp : p x <;> simp [countEvt, List.filter_cons, hp, Nat.add_comm]

theorem runOps_count (p : Event → Bool)
    (hp : ∀ t : TapeEntry, p (Event.op t) = false) :
    ∀ (ops : List Op) {σ τ : Scopes} {tr : List Event},
      runOps ops σ = .ok (τ, tr) → countEvt p tr = 0
  | [], σ, τ, tr, h => by
    simp only [runOps] at h
    injection h with h1
    injection h1 with _ htr
    rw [← htr]
    rfl
  | o :: os, σ, τ, tr, h => by
    simp only [runOps] at h
    cases he : execOp o σ with
    | error e => simp [he] at h
    | ok p1 =>
      obtain ⟨σ1, t⟩ := p1
      simp only [he] at h
      cases hr : runOps os σ1 with
      | error e => simp [hr] at h
      | ok q =>
        obtain ⟨σ2, ts⟩ := q
        simp only [hr] at h
        injection h with h1
        injection h1 with _ htr
        rw [← htr, countEvt_cons, hp t, runOps_count p hp os hr]
        simp

theorem execAux_count
    (rec : Stmt → Scopes → Except Err (Scopes × List Event))
    (hrec : ∀ st σ τ tr, rec st σ = .ok (τ, tr) →
      countEvt isIter tr ≤ countEvt isCondTrue tr) :
    ∀ (st : Stmt) (σ τ : Scopes) (tr : List Event),
      execAux rec st σ = .ok (τ, tr) →
      countEvt isIter tr ≤ countEvt isCondTrue tr
  | .skip, σ, τ, tr, h => by
    simp only [execAux] at h
    injection h with h1
    injection h1 with _ htr
    rw [← htr]
    exact Nat.le_refl _
  | .prim o, σ, τ, tr, h => by
    simp only [execAux] at h
    cases he : execOp o σ with
    | error e => simp [he] at h
    | ok p =>
      obtain ⟨σ1, t⟩ := p
      simp only [he] at h
      injection h with h1
      injection h1 with _ htr
      rw [← htr]
      simp [countEvt_cons, isIter, isCondTrue, countEvt]
  | .seq a b, σ, τ, tr, h => by
    simp only [execAux] at h
    cases ha : execAux rec a σ with
    | error e => simp [ha] at h
    | ok p =>
      obtain ⟨σ1, t1⟩ := p
      simp only [ha] at h
      cases hb : execAux rec b σ1 with
      | error e => simp [hb] at h
      | ok q =>
        obtain ⟨σ2, t2⟩ := q
        simp only [hb] at h
        injection h with h1
        injection h1 with _ htr
        rw [← htr, countEvt_append, countEvt_append]
        exact Nat.add_le_add (execAux_count rec hrec a σ σ1 t1 ha)
          (execAux_count rec hrec b σ1 σ2 t2 hb)
  | .ifNet co cb tB eB, σ, τ, tr, h => by
    simp only [execAux] at h
    cases hco : runOps co σ with
    | error e => simp [hco] at h
    | ok p =>
      obtain ⟨σc, tc⟩ := p
      simp only [hco] at h
      cases hcb : lookupS cb σc with
      | none => simp [hcb] at h
      | some c =>
        simp only [hcb] at h
        have hci : countEvt isIter tc = 0 :=
          runOps_count isIter (fun _ => rfl) co hco
        have hct : countEvt isCondTrue tc = 0 :=
          runOps_count isCondTrue (fun _ => rfl) co hco
        by_cases hc : c ≠ 0
        · rw [if_pos hc] at h
          cases ht : execAux rec tB ([] :: σc) with
          | error e => simp [ht] at h
          | ok q =>
            obtain ⟨σt, tt⟩ := q
            simp only [ht] at h
            injection h with h1
            injection h1 with _ htr
            have hle := execAux_count rec hrec tB ([] :: σc) σt tt ht
            rw [← htr]
            simp [countEvt_append, countEvt_cons, isIter, isCondTrue, hci, hct]
            omega
        · rw [if_neg hc] at h
          cases eB with
          | some eS =>
            cases he : execAux rec eS ([] :: σc) with
            | error e => simp [he] at h
            | ok q =>
              obtain ⟨σe, te⟩ := q
              simp only [he] at h
              injection h with h1
              injection h1 with _ htr
              have hle := execAux_count rec hrec eS ([] :: σc) σe te he
              rw [← htr]
              simp [countEvt_append, countEvt_cons, isIter, isCondTrue, hci, hct]
              omega
          | none =>
            simp only at h
            injection h with h1
            injection h1 with _ htr
            rw [← htr]
            simp [countEvt_append, countEvt_cons, countEvt, isIter, isCondTrue]
            show countEvt isIter tc ≤ countEvt isCondTrue tc
            rw [hci, hct]
  | .whileNet co cb body, σ, τ, tr, h => by
    simp only [execAux] at h
    cases hco : runOps co ([] :: σ) with
    | error e => simp [hco] at h
    | ok p =>
      obtain ⟨σc, tc⟩ := p
      simp only [hco] at h
      cases hcb : lookupS cb σc with
      | none => simp [hcb] at h
      | some c =>
        simp only [hcb] at h
        have hci : countEvt isIter tc = 0 :=
          runOps_count isIter (fun _ => rfl) co hco
        have hct : countEvt isCondTrue tc = 0 :=
          runOps_count isCondTrue (fun _ => rfl) co hco
        by_cases hc : c ≠ 0
        · rw [if_pos hc] at h
          cases hb : execAux rec body ([] :: σc.tail) with
          | error e => simp [hb] at h
          | ok q =>
            obtain ⟨σb, tb⟩ := q
            simp only [hb] at h
            cases hr : rec (.whileNet co cb body) σb.tail with
            | error e => simp [hr] at h
            | ok r =>
              obtain ⟨σr, tr2⟩ := r
              simp only [hr] at h
              injection h with h1
              injection h1 with _ htr
              have h1' := execAux_count rec hrec body ([] :: σc.tail) σb tb hb
              have h2' := hrec _ _ _ _ hr
              rw [← htr]
              simp [countEvt_append, countEvt_cons, isIter, isCondTrue, hci, hct]
              omega
        · rw [if_neg hc] at h
          injection h with h1
          injection h1 with _ htr
          rw [← htr]
          simp [countEvt_append, countEvt_cons, countEvt, isIter, isCondTrue]
          show countEvt isIter tc ≤ countEvt isCondTrue tc
          rw [hci, hct]

theorem exec_count : ∀ (fuel : ℕ) (st : Stmt) (σ τ : Scopes) (tr : List Event),
    exec fuel st σ = .ok (τ, tr) →
    countEvt isIter tr ≤ countEvt isCondTrue tr
  | 0, st, σ, τ, tr, h => by simp [exec] at h
  | fuel + 1, st, σ, τ, tr, h =>
    execAux_count (exec fuel) (exec_count fuel) st σ τ tr h

/-! ## Soundness of the construction-time check

If the static check accepts a statement, execution never raises
`undefinedInput`: the only possible failure is the model's fuel bound. -/

/-- All names of `D` are bound somewhere in the scope chain. -/
def allBound (D : List String) (σ : Scopes) : Prop :=
  ∀ n, n ∈ D → (lookupS n σ).isSome = true

theorem insertName_mem {n m : String} {D : List String} :
    m ∈ insertName n D ↔ m = n ∨ m ∈ D := by
  by_cases hn : n ∈ D
  · simp only [insertName, if_pos hn]
    constructor
    · intro h
      exact Or.inr h
    · rintro (rfl | h)
      · exact hn
      · exact h
  · simp [insertName, if_neg hn]

theorem setS_ne_nil {n : String} {v : ℚ} {σ : Scopes} (h : σ ≠ []) :
    setS n v σ ≠ [] := by
  intro hc
  have hl := setS_length n v σ
  rw [hc] at hl
  cases σ with
  | nil => exact h rfl
  | cons f σt => simp at hl

theorem allBound_push {D : List String} {σ : Scopes} (h : allBound D σ) :
    allBound D ([] :: σ) := by
  intro n hn
  simpa [lookupS, lookupF] using h n hn

theorem sameDoms_allBound {D : List String} {σ τ : Scopes}
    (hsd : SameDoms σ τ) (h : allBound D σ) : allBound D τ := by
  intro n hn
  rw [← sameDoms_lookup hsd n]
  exact h n hn

theorem sameDoms_ne_nil {σ τ : Scopes} (hsd : SameDoms σ τ) (h : σ ≠ []) :
    τ ≠ [] := by
  intro hc
  subst hc
  cases hsd
  exact h rfl

theorem check_sound_op {D D' : List String} {o : Op} {σ : Scopes}
    (hck : checkOp D o = some D') (hD : allBound D σ) (hσ : σ ≠ []) :
    ∃ τ t, execOp o σ = .ok (τ, t) ∧ allBound D' τ ∧ τ ≠ [] := by
  have hset : ∀ (out : String) (v : ℚ),
      allBound (insertName out D) (setS out v σ) ∧ setS out v σ ≠ [] := by
    intro out v
    refine ⟨fun n hn => ?_, setS_ne_nil hσ⟩
    rcases insertName_mem.mp hn with rfl | hn'
    · exact setS_isSome_self n v σ hσ
    · exact setS_isSome_mono out v σ n (hD n hn')
  cases o with
  | const v out =>
    simp only [checkOp] at hck
    injection hck with hD'
    subst hD'
    exact ⟨_, _, rfl, (hset out v).1, (hset out v).2⟩
  | copy src dst =>
    simp only [checkOp] at hck
    by_cases hs : src ∈ D
    · rw [if_pos hs] at hck
      injection hck with hD'
      subst hD'
      obtain ⟨v, hv⟩ := Option.isSome_iff_exists.mp (hD src hs)
      refine ⟨setS dst v σ, .copyE src dst, ?_, (hset dst v).1, (hset dst v).2⟩
      simp [execOp, hv]
    · rw [if_neg hs] at hck
      exact Option.noConfusion hck
  | add a b out =>
    simp only [checkOp] at hck
    by_cases hab : a ∈ D ∧ b ∈ D
    · rw [if_pos hab] at hck
      injection hck with hD'
      subst hD'
      obtain ⟨x, hx⟩ := Option.isSome_iff_exists.mp (hD a hab.1)
      obtain ⟨y, hy⟩ := Option.isSome_iff_exists.mp (hD b hab.2)
      refine ⟨setS out (x + y) σ, .addE a b out, ?_, (hset out (x + y)).1,
        (hset out (x + y)).2⟩
      simp [execOp, hx, hy]
    · rw [if_neg hab] at hck
      exact Option.noConfusion hck
  | gt a b out =>
    simp only [checkOp] at hck
    by_cases hab : a ∈ D ∧ b ∈ D
    · rw [if_pos hab] at hck
      injection hck with hD'
      subst hD'
      obtain ⟨x, hx⟩ := Option.isSome_iff_exists.mp (hD a hab.1)
      obtain ⟨y, hy⟩ := Option.isSome_iff_exists.mp (hD b hab.2)
      refine ⟨setS out (if y < x then 1 else 0) σ, .cmpE out, ?_,
        (hset out (if y < x then 1 else 0)).1, (hset out (if y < x then 1 else 0)).2⟩
      simp [execOp, hx, hy]
    · rw [if_neg hab] at hck
      exact Option.noConfusion hck
  | le a b out =>
    simp only [checkOp] at hck
    by_cases hab : a ∈ D ∧ b ∈ D
    · rw [if_pos hab] at hck
      injection hck with hD'
      subst hD'
      obtain ⟨x, hx⟩ := Option.isSome_iff_exists.mp (hD a hab.1)
      obtain ⟨y, hy⟩ := Option.isSome_iff_exists.mp (hD b hab.2)
      refine ⟨setS out (if x ≤ y then 1 else 0) σ, .cmpE out, ?_,
        (hset out (if x ≤ y then 1 else 0)).1, (hset out (if x ≤ y then 1 else 0)).2⟩
      simp [execOp, hx, hy]
    · rw [if_neg hab] at hck
      exact Option.noConfusion hck
  | lt a b out =>
    simp only [checkOp] at hck
    by_cases hab : a ∈ D ∧ b ∈ D
    · rw [if_pos hab] at hck
      injection hck with hD'
      subst hD'
      obtain ⟨x, hx⟩ := Option.isSome_iff_exists.mp (hD a hab.1)
      obtain ⟨y, hy⟩ := Option.isSome_iff_exists.mp (hD b hab.2)
      refine ⟨setS out (if x < y then 1 else 0) σ, .cmpE out, ?_,
        (hset out (if x < y then 1 else 0)).1, (hset out (if x < y then 1 else 0)).2⟩
      simp [execOp, hx, hy]
    · rw [if_neg hab] at hck
      exact Option.noConfusion hck
  | pow src dst e =>
    simp only [checkOp] at hck
    by_cases hs : src ∈ D
    · rw [if_pos hs] at hck
      injection hck with hD'
      subst hD'
      obtain ⟨x, hx⟩ := Option.isSome_iff_exists.mp (hD src hs)
      refine ⟨setS dst (x ^ e) σ, .powE src dst e x, ?_, (hset dst (x ^ e)).1,
        (hset dst (x ^ e)).2⟩
      simp [execOp, hx]
    · rw [if_neg hs] at hck
      exact Option.noConfusion hck

theorem check_sound_ops : ∀ (ops : List Op) {D D' : List String} {σ : Scopes},
    checkOps D ops = some D' → allBound D σ → σ ≠ [] →
    ∃ τ tr, runOps ops σ = .ok (τ, tr) ∧ allBound D' τ ∧ τ ≠ []
  | [], D, D', σ, hck, hD, hσ => by
    simp only [checkOps] at hck
    injection hck with hD'
    subst hD'
    exact ⟨σ, [], rfl, hD, hσ⟩
  | o :: os, D, D', σ, hck, hD, hσ => by
    simp only [checkOps] at hck
    cases hco : checkOp D o with
    | none => rw [hco] at hck; exact Option.noConfusion hck
    | some D1 =>
      rw [hco] at hck
      obtain ⟨σ1, t, he, hD1, hσ1⟩ := check_sound_op hco hD hσ
      obtain ⟨σ2, ts, hr, hD2, hσ2⟩ := check_sound_ops os hck hD1 hσ1
      exact ⟨σ2, Event.op t :: ts, by simp [runOps, he, hr], hD2, hσ2⟩

theorem pushed_run_tail
    (rec : Stmt → Scopes → Except Err (Scopes × List Event))
    (hrecEv : ∀ st σ τ tr, rec st σ = .ok (τ, tr) → EvolvesTo σ τ)
    {br : Stmt} {σc σt : Scopes} {tt : List Event}
    (hres : execAux rec br ([] :: σc) = .ok (σt, tt))
    {D' : List String} (hDc : allBound D' σc) (hσc : σc ≠ []) :
    allBound D' σt.tail ∧ σt.tail ≠ [] := by
  obtain ⟨g, τt, hτ, hsd, _⟩ :=
    evolves_push (execAux_evolves rec hrecEv br ([] :: σc) σt tt hres)
  rw [hτ]
  exact ⟨sameDoms_allBound hsd hDc, sameDoms_ne_nil hsd hσc⟩

theorem execAux_check
    (rec : Stmt → Scopes → Except Err (Scopes × List Event))
    (hrecEv : ∀ st σ τ tr, rec st σ = .ok (τ, tr) → EvolvesTo σ τ)
    (hrec : ∀ st D D' σ, checkStmt st D = some D' → allBound D σ → σ ≠ [] →
      (∀ e, rec st σ = .error e → e = Err.outOfFuel) ∧
      (∀ τ tr, rec st σ = .ok (τ, tr) → allBound D' τ ∧ τ ≠ [])) :
    ∀ (st : Stmt) (D D' : List String) (σ : Scopes),
      checkStmt st D = some D' → allBound D σ → σ ≠ [] →
      (∀ e, execAux rec st σ = .error e → e = Err.outOfFuel) ∧
      (∀ τ tr, execAux rec st σ = .ok (τ, tr) → allBound D' τ ∧ τ ≠ [])
  | .skip, D, D', σ, hck, hD, hσ => by
    simp only [checkStmt] at hck
    injection hck with hD'
    subst hD'
    constructor
    · intro e he
      simp [execAux] at he
    · intro τ tr h
      simp only [execAux] at h
      injection h with h1
      injection h1 with hσ' _
      rw [← hσ']
      exact ⟨hD, hσ⟩
  | .prim o, D, D', σ, hck, hD, hσ => by
    simp only [checkStmt] at hck
    obtain ⟨τ0, t0, he, hD', hτ0⟩ := check_sound_op hck hD hσ
    constructor
    · intro e hee
      simp [execAux, he] at hee
    · intro τ tr h
      simp only [execAux, he] at h
      injection h with h1
      injection h1 with hσ' _
      rw [← hσ']
      exact ⟨hD', hτ0⟩
  | .seq a b, D, D', σ, hck, hD, hσ => by
    simp only [checkStmt] at hck
    cases hca : checkStmt a D with
    | none => rw [hca] at hck; exact Option.noConfusion hck
    | some D1 =>
      rw [hca] at hck
      have iha := execAux_check rec hrecEv hrec a D D1 σ hca hD hσ
      constructor
      · intro e he
        simp only [execAux] at he
        cases ha : execAux rec a σ with
        | error e1 =>
          rw [ha] at he
          injection he with he1
          exact he1 ▸ iha.1 e1 ha
        | ok p =>
          obtain ⟨σ1, t1⟩ := p
          rw [ha] at he
          simp only at he
          obtain ⟨hD1, hσ1⟩ := iha.2 σ1 t1 ha
          have ihb := execAux_check rec hrecEv hrec b D1 D' σ1 hck hD1 hσ1
          cases hb : execAux rec b σ1 with
          | error e2 =>
            rw [hb] at he
            simp only at he
            injection he with he1
            exact he1 ▸ ihb.1 e2 hb
          | ok q =>
            rw [hb] at he
            simp at he
      · intro τ tr h
        simp only [execAux] at h
        cases ha : execAux rec a σ with
        | error e1 => simp [ha] at h
        | ok p =>
          obtain ⟨σ1, t1⟩ := p
          simp only [ha] at h
          obtain ⟨hD1, hσ1⟩ := iha.2 σ1 t1 ha
          have ihb := execAux_check rec hrecEv hrec b D1 D' σ1 hck hD1 hσ1
          cases hb : execAux rec b σ1 with
          | error e2 => simp [hb] at h
          | ok q =>
            obtain ⟨σ2, t2⟩ := q
            simp only [hb] at h
            injection h with h1
            injection h1 with hσ' _
            rw [← hσ']
            exact ihb.2 σ2 t2 hb
  | .ifNet co cb tB eB, D, D', σ, hck, hD, hσ => by
    simp only [checkStmt] at hck
    cases hcos : checkOps D co with
    | none => rw [hcos] at hck; exact Option.noConfusion hck
    | some D1 =>
      rw [hcos] at hck
      simp only at hck
      by_cases hm : cb ∈ D1
      · rw [if_pos hm] at hck
        have hsplit : D' = D1 ∧ (∃ Dt, checkStmt tB D1 = some Dt) ∧
            (∀ eS, eB = some eS → ∃ De, checkStmt eS D1 = some De) := by
          cases eB with
          | none =>
            simp only at hck
            cases hct : checkStmt tB D1 with
            | none => rw [hct] at hck; exact Option.noConfusion hck
            | some Dt =>
              rw [hct] at hck
              simp only at hck
              injection hck with h1
              exact ⟨h1.symm, ⟨Dt, rfl⟩, fun eS h => Option.noConfusion h⟩
          | some eS =>
            simp only at hck
            cases hct : checkStmt tB D1 with
            | none =>
              cases hce : checkStmt eS D1 <;> rw [hct, hce] at hck <;>
                simp only at hck <;> exact Option.noConfusion hck
            | some Dt =>
              cases hce : checkStmt eS D1 with
              | none =>
                rw [hct, hce] at hck
                simp only at hck
                exact Option.noConfusion hck
              | some De =>
                rw [hct, hce] at hck
                simp only at hck
                injection hck with h1
                refine ⟨h1.symm, ⟨Dt, rfl⟩, fun eS' heq => ?_⟩
                injection heq with heq1
                exact ⟨De, heq1 ▸ hce⟩
        obtain ⟨hD'eq, ⟨Dt, hct⟩, helse⟩ := hsplit
        subst hD'eq
        obtain ⟨σc, tc, hcoe, hDc, hσc⟩ := check_sound_ops co hcos hD hσ
        obtain ⟨c, hc⟩ := Option.isSome_iff_exists.mp (hDc cb hm)
        constructor
        · intro e he
          simp only [execAux, hcoe, hc] at he
          by_cases hcz : c ≠ 0
          · rw [if_pos hcz] at he
            cases ht : execAux rec tB ([] :: σc) with
            | error e1 =>
              rw [ht] at he
              simp only at he
              injection he with he1
              exact he1 ▸ (execAux_check rec hrecEv hrec tB D' Dt ([] :: σc)
                hct (allBound_push hDc) (by simp)).1 e1 ht
            | ok q =>
              rw [ht] at he
              simp at he
          · rw [if_neg hcz] at he
            cases eB with
            | some eS =>
              simp only at he
              obtain ⟨De, hce⟩ := helse eS rfl
              cases hee : execAux rec eS ([] :: σc) with
              | error e1 =>
                rw [hee] at he
                simp only at he
                injection he with he1
                exact he1 ▸ (execAux_check rec hrecEv hrec eS D' De ([] :: σc)
                  hce (allBound_push hDc) (by simp)).1 e1 hee
              | ok q =>
                rw [hee] at he
                simp at he
            | none => simp at he
        · intro τ tr h
          simp only [execAux, hcoe, hc] at h
          by_cases hcz : c ≠ 0
          · rw [if_pos hcz] at h
            cases ht : execAux rec tB ([] :: σc) with
            | error e1 => simp [ht] at h
            | ok q =>
              obtain ⟨σt, tt⟩ := q
              simp only [ht] at h
              injection h with h1
              injection h1 with hσ' _
              rw [← hσ']
              exact pushed_run_tail rec hrecEv ht hDc hσc
          · rw [if_neg hcz] at h
            cases eB with
            | some eS =>
              simp only at h
              obtain ⟨De, hce⟩ := helse eS rfl
              cases hee : execAux rec eS ([] :: σc) with
              | error e1 => simp [hee] at h
              | ok q =>
                obtain ⟨σe, te⟩ := q
                simp only [hee] at h
                injection h with h1
                injection h1 with hσ' _
                rw [← hσ']
                exact pushed_run_tail rec hrecEv hee hDc hσc
            | none =>
              simp only at h
              injection h with h1
              injection h1 with hσ' _
              rw [← hσ']
              exact ⟨hDc, hσc⟩
      · rw [if_neg hm] at hck
        exact Option.noConfusion hck
  | .whileNet co cb body, D, D', σ, hck, hD, hσ => by
    simp only [checkStmt] at hck
    cases hcos : checkOps D co with
    | none => rw [hcos] at hck; exact Option.noConfusion hck
    | some D1 =>
      rw [hcos] at hck
      simp only at hck
      by_cases hm : cb ∈ D1
      · rw [if_pos hm] at hck
        cases hcbody : checkStmt body D with
        | none => rw [hcbody] at hck; exact Option.noConfusion hck
        | some Db =>
          rw [hcbody] at hck
          injection hck with hD'
          subst hD'
          obtain ⟨σc, tc, hcoe, hDc, hσc⟩ :=
            check_sound_ops co hcos (allBound_push hD) (by simp)
          obtain ⟨c, hc⟩ := Option.isSome_iff_exists.mp (hDc cb hm)
          obtain ⟨g, τt, hτ, hsd, _⟩ := evolves_push (runOps_evolves co hcoe)
          have hsdtail : SameDoms σ σc.tail := by
            rw [hτ]
            exact hsd
          have hDtail : allBound D σc.tail := sameDoms_allBound hsdtail hD
          have hσtail : σc.tail ≠ [] := sameDoms_ne_nil hsdtail hσ
          have hbody := execAux_check rec hrecEv hrec body D Db ([] :: σc.tail)
            hcbody (allBound_push hDtail) (by simp)
          constructor
          · intro e he
            simp only [execAux, hcoe, hc] at he
            by_cases hcz : c ≠ 0
            · rw [if_pos hcz] at he
              cases hb : execAux rec body ([] :: σc.tail) with
              | error e1 =>
                rw [hb] at he
                simp only at he
                injection he with he1
                exact he1 ▸ hbody.1 e1 hb
              | ok q =>
                obtain ⟨σb, tb⟩ := q
                rw [hb] at he
                simp only at he
                obtain ⟨g2, τt2, hτ2, hsd2, _⟩ :=
                  evolves_push (execAux_evolves rec hrecEv body ([] :: σc.tail)
                    σb tb hb)
                have hsd2' : SameDoms σc.tail σb.tail := by
                  rw [hτ2]
                  exact hsd2
                have hrecw := hrec (.whileNet co cb body) D D σb.tail
                  (by simp [checkStmt, hcos, hcbody, hm])
                  (sameDoms_allBound hsd2' hDtail)
                  (sameDoms_ne_nil hsd2' hσtail)
                cases hr : rec (.whileNet co cb body) σb.tail with
                | error e2 =>
                  rw [hr] at he
                  simp only at he
                  injection he with he1
                  exact he1 ▸ hrecw.1 e2 hr
                | ok r =>
                  rw [hr] at he
                  simp at he
            · rw [if_neg hcz] at he
              simp at he
          · intro τ tr h
            simp only [execAux, hcoe, hc] at h
            by_cases hcz : c ≠ 0
            · rw [if_pos hcz] at h
              cases hb : execAux rec body ([] :: σc.tail) with
              | error e1 => simp [hb] at h
              | ok q =>
                obtain ⟨σb, tb⟩ := q
                simp only [hb] at h
                obtain ⟨g2, τt2, hτ2, hsd2, _⟩ :=
                  evolves_push (execAux_evolves rec hrecEv body ([] :: σc.tail)
                    σb tb hb)
                have hsd2' : SameDoms σc.tail σb.tail := by
                  rw [hτ2]
                  exact hsd2
                have hrecw := hrec (.whileNet co cb body) D D σb.tail
                  (by simp [checkStmt, hcos, hcbody, hm])
                  (sameDoms_allBound hsd2' hDtail)
                  (sameDoms_ne_nil hsd2' hσtail)
                cases hr : rec (.whileNet co cb body) σb.tail with
                | error e2 => simp [hr] at h
                | ok r =>
                  obtain ⟨σr, tr2⟩ := r
                  simp only [hr] at h
                  injection h with h1
                  injection h1 with hσ' _
                  rw [← hσ']
                  exact hrecw.2 σr tr2 hr
            · rw [if_neg hcz] at h
              injection h with h1
              injection h1 with hσ' _
              rw [← hσ']
              exact ⟨hDtail, hσtail⟩
      · rw [if_neg hm] at hck
        exact Option.noConfusion hck

theorem exec_check : ∀ (fuel : ℕ) (st : Stmt) (D D' : List String) (σ : Scopes),
    checkStmt st D = some D' → allBound D σ → σ ≠ [] →
    (∀ e, exec fuel st σ = .error e → e = Err.outOfFuel) ∧
    (∀ τ tr, exec fuel st σ = .ok (τ, tr) → allBound D' τ ∧ τ ≠ [])
  | 0, st, D, D', σ, _, _, _ => by
    constructor
    · intro e he
      simp only [exec] at he
      injection he with he1
      exact he1.symm
    · intro τ tr h
      simp [exec] at h
  | fuel + 1, st, D, D', σ, hck, hD, hσ =>
    execAux_check (exec fuel) (exec_evolves fuel)
      (fun st' D0 D0' σ' => exec_check fuel st' D0 D0' σ') st D D' σ hck hD hσ

/-! ## The claims -/

/-- C1: for every Conditional Executor run with a then-sequence and an
else-sequence, exactly one of the two executes — the result never depends
on the untaken branch (it is never instantiated), and the taken branch's
execution is exactly what the run performs; with no else-sequence and a
false condition no branch executes, no writes beyond the condition's
occur, no error is raised, and the result scope is exactly the
post-condition scope, so names that only the then-branch would define
remain absent. -/
theorem c1_conditional_exactly_one_branch
    (fuel : ℕ) (co : List Op) (cb : String) (tB eS : Stmt) (σ σc : Scopes)
    (tc : List Event) (c : ℚ)
    (hco : runOps co σ = .ok (σc, tc))
    (hcb : lookupS cb σc = some c) :
    (c ≠ 0 → ∀ e1 e2 : Stmt,
      exec (fuel + 1) (.ifNet co cb tB (some e1)) σ =
        exec (fuel + 1) (.ifNet co cb tB (some e2)) σ) ∧
    (c = 0 → ∀ t1 t2 : Stmt,
      exec (fuel + 1) (.ifNet co cb t1 (some eS)) σ =
        exec (fuel + 1) (.ifNet co cb t2 (some eS)) σ) ∧
    (c ≠ 0 →
      exec (fuel + 1) (.ifNet co cb tB (some eS)) σ =
        (match exec (fuel + 1) tB ([] :: σc) with
          | .error e => .error e
          | .ok (σt, tt) => .ok (σt.tail, tc ++ Event.thenTaken :: tt))) ∧
    (c = 0 →
      exec (fuel + 1) (.ifNet co cb tB (some eS)) σ =
        (match exec (fuel + 1) eS ([] :: σc) with
          | .error e => .error e
          | .ok (σe, te) => .ok (σe.tail, tc ++ Event.elseTaken :: te))) ∧
    (c = 0 →
      exec (fuel + 1) (.ifNet co cb tB none) σ = .ok (σc, tc ++ [Event.noBranch])) := by
  refine ⟨fun hc e1 e2 => ?_, fun hc t1 t2 => ?_, fun hc => ?_, fun hc => ?_,
    fun hc => ?_⟩
  · show execAux (exec fuel) _ σ = execAux (exec fuel) _ σ
    simp only [execAux, hco, hcb, if_pos hc]
  · show execAux (exec fuel) _ σ = execAux (exec fuel) _ σ
    have hc' : ¬c ≠ 0 := by simp [hc]
    simp only [execAux, hco, hcb, if_neg hc']
  · show execAux (exec fuel) _ σ = _
    simp only [execAux, hco, hcb, if_pos hc]
    rfl
  · show execAux (exec fuel) _ σ = _
    have hc' : ¬c ≠ 0 := by simp [hc]
    simp only [execAux, hco, hcb, if_neg hc']
    rfl
  · show execAux (exec fuel) _ σ = _
    have hc' : ¬c ≠ 0 := by simp [hc]
    simp only [execAux, hco, hcb, if_neg hc']

/-- Witness for C1 at the notebook's first conditional: condition `x > 0`
with `x = 0.5` evaluates to true, and the run's result does not depend on
the else-sequence. -/
theorem c1_witness :
    runOps [Op.gt "x" "zero" "cnd0"]
        [[("x", 1/2), ("zero", 0), ("one", 1), ("y", 0)]] =
      .ok ([[("cnd0", 1), ("x", 1/2), ("zero", 0), ("one", 1), ("y", 0)]],
        [Event.op (.cmpE "cnd0")]) ∧
    lookupS "cnd0" [[("cnd0", 1), ("x", 1/2), ("zero", 0), ("one", 1), ("y", 0)]] =
      some 1 ∧
    exec 1 (.ifNet [Op.gt "x" "zero" "cnd0"] "cnd0" (.prim (.copy "one" "y"))
        (some (.prim (.copy "zero" "y"))))
        [[("x", 1/2), ("zero", 0), ("one", 1), ("y", 0)]] =
      exec 1 (.ifNet [Op.gt "x" "zero" "cnd0"] "cnd0" (.prim (.copy "one" "y"))
        (some .skip))
        [[("x", 1/2), ("zero", 0), ("one", 1), ("y", 0)]] :=
  ⟨by norm_num +decide [runOps, execOp, lookupS, lookupF, setS, setF],
   by norm_num +decide [lookupS, lookupF],
   (c1_conditional_exactly_one_branch 0 [Op.gt "x" "zero" "cnd0"] "cnd0"
      (.prim (.copy "one" "y")) .skip
      [[("x", 1/2), ("zero", 0), ("one", 1), ("y", 0)]]
      [[("cnd0", 1), ("x", 1/2), ("zero", 0), ("one", 1), ("y", 0)]]
      [Event.op (.cmpE "cnd0")] 1
      (by norm_num +decide [runOps, execOp, lookupS, lookupF, setS, setF])
      (by norm_num +decide [lookupS, lookupF])).1
    (by norm_num) (.prim (.copy "zero" "y")) .skip⟩

/-- C2: a name first written inside a branch scope or a loop scope is a
local binding: after the construct completes (and its scope is disposed),
fetching the name from the enclosing workspace fails with NotFound — never
stale data. -/
theorem c2_scope_locals_invisible :
    (∀ (fuel : ℕ) (co : List Op) (cb : String) (tB : Stmt) (eB : Option Stmt)
        (σ σc σr : Scopes) (tc tr : List Event) (n : String),
        runOps co σ = .ok (σc, tc) → lookupS n σc = none →
        exec (fuel + 1) (.ifNet co cb tB eB) σ = .ok (σr, tr) →
        fetch n σr = .error .notFound) ∧
    (∀ (fuel : ℕ) (co : List Op) (cb : String) (body : Stmt)
        (σ σr : Scopes) (tr : List Event) (n : String),
        lookupS n σ = none →
        exec fuel (.whileNet co cb body) σ = .ok (σr, tr) →
        fetch n σr = .error .notFound) := by
  constructor
  · intro fuel co cb tB eB σ σc σr tc tr n hco hn h
    simp only [exec, execAux, hco] at h
    cases hcb : lookupS cb σc with
    | none => simp [hcb] at h
    | some c =>
      simp only [hcb] at h
      have key : ∀ (br : Stmt) (σt : Scopes) (tt : List Event),
          execAux (exec fuel) br ([] :: σc) = .ok (σt, tt) →
          fetch n σt.tail = .error .notFound := by
        intro br σt tt hbr
        obtain ⟨g, τt, hτ, hsd, _⟩ :=
          evolves_push (execAux_evolves (exec fuel) (exec_evolves fuel) br
            ([] :: σc) σt tt hbr)
        have hiso : (lookupS n τt).isSome = (lookupS n σc).isSome :=
          (sameDoms_lookup hsd n).symm
        rw [hn] at hiso
        have hnone : lookupS n τt = none := by
          cases hv : lookupS n τt
          · rfl
          · rw [hv] at hiso
            simp at hiso
        rw [hτ]
        simp [fetch, hnone]
      by_cases hc : c ≠ 0
      · rw [if_pos hc] at h
        cases ht : execAux (exec fuel) tB ([] :: σc) with
        | error e => simp [ht] at h
        | ok q =>
          obtain ⟨σt, tt⟩ := q
          simp only [ht] at h
          injection h with h1
          injection h1 with hσ' _
          rw [← hσ']
          exact key tB σt tt ht
      · rw [if_neg hc] at h
        cases eB with
        | some eS =>
          cases he : execAux (exec fuel) eS ([] :: σc) with
          | error e => simp [he] at h
          | ok q =>
            obtain ⟨σe, te⟩ := q
            simp only [he] at h
            injection h with h1
            injection h1 with hσ' _
            rw [← hσ']
            exact key eS σe te he
        | none =>
          simp only at h
          injection h with h1
          injection h1 with hσ' _
          rw [← hσ']
          simp [fetch, hn]
  · intro fuel co cb body σ σr tr n hn h
    have hsd := while_doms fuel co cb body σ σr tr h
    have hiso : (lookupS n σr).isSome = (lookupS n σ).isSome :=
      (sameDoms_lookup hsd n).symm
    rw [hn] at hiso
    have hnone : lookupS n σr = none := by
      cases hv : lookupS n σr
      · rfl
      · rw [hv] at hiso
        simp at hiso
    simp [fetch, hnone]

/-- Witness for C2: writing `local_blob` inside a then-branch leaves it
absent from the outer workspace afterwards — `fetch` fails with
NotFound. -/
theorem c2_witness :
    runOps [Op.gt "x" "y" "c"] [[("x", 1), ("y", 0)]] =
      .ok ([[("c", 1), ("x", 1), ("y", 0)]], [Event.op (.cmpE "c")]) ∧
    lookupS "local_blob" [[("c", 1), ("x", 1), ("y", 0)]] = none ∧
    exec 1 (.ifNet [Op.gt "x" "y" "c"] "c" (.prim (.copy "x" "local_blob")) none)
        [[("x", 1), ("y", 0)]] =
      .ok ([[("c", 1), ("x", 1), ("y", 0)]],
        [Event.op (.cmpE "c"), Event.thenTaken,
          Event.op (.copyE "x" "local_blob")]) ∧
    fetch "local_blob" [[("c", 1), ("x", 1), ("y", 0)]] = .error .notFound :=
  ⟨by norm_num +decide [runOps, execOp, lookupS, lookupF, setS, setF],
   by norm_num +decide [lookupS, lookupF],
   by norm_num +decide [exec, execAux, runOps, execOp, lookupS, lookupF, setS,
     setF],
   c2_scope_locals_invisible.1 0 [Op.gt "x" "y" "c"] "c"
     (.prim (.copy "x" "local_blob")) none [[("x", 1), ("y", 0)]]
     [[("c", 1), ("x", 1), ("y", 0)]] [[("c", 1), ("x", 1), ("y", 0)]]
     [Event.op (.cmpE "c")]
     [Event.op (.cmpE "c"), Event.thenTaken, Event.op (.copyE "x" "local_blob")]
     "local_blob"
     (by norm_num +decide [runOps, execOp, lookupS, lookupF, setS, setF])
     (by norm_num +decide [lookupS, lookupF])
     (by norm_num +decide [exec, execAux, runOps, execOp, lookupS, lookupF,
       setS, setF])⟩

/-- C3: a name already bound in the enclosing scope before a conditional
runs is updated in place by nested writes: the run pops the branch scope,
and the enclosing scope's read after completion equals the read at the end
of the branch execution (the nested write is observed); concretely, the
notebook's first conditional ends with `y = 1.0`. -/
theorem c3_external_write_through
    (fuel : ℕ) (co : List Op) (cb : String) (tB : Stmt) (eB : Option Stmt)
    (σ σc σin : Scopes) (tc tt : List Event) (c v0 : ℚ) (n : String)
    (hco : runOps co σ = .ok (σc, tc))
    (hcb : lookupS cb σc = some c)
    (hc : c ≠ 0)
    (hin : exec (fuel + 1) tB ([] :: σc) = .ok (σin, tt))
    (hn : lookupS n σc = some v0) :
    (exec (fuel + 1) (.ifNet co cb tB eB) σ =
      .ok (σin.tail, tc ++ Event.thenTaken :: tt)) ∧
    lookupS n σin.tail = lookupS n σin ∧
    lookupS "y" (resultScope (exec 2 ifExample1 [[]])) = some 1 := by
  have hin' : execAux (exec fuel) tB ([] :: σc) = .ok (σin, tt) := hin
  refine ⟨?_, ?_, ?_⟩
  · show execAux (exec fuel) _ σ = _
    simp only [execAux, hco, hcb, if_pos hc, hin']
  · obtain ⟨g, τt, hτ, hsd, hfresh⟩ :=
      evolves_push (execAux_evolves (exec fuel) (exec_evolves fuel) tB
        ([] :: σc) σin tt hin')
    have hg : lookupF n g = none := by
      cases hv : lookupF n g
      · rfl
      · have hcontra := hfresh n (by simp [hv])
        rw [hn] at hcontra
        exact Option.noConfusion hcontra
    rw [hτ]
    simp [lookupS, hg]
  · norm_num +decide [exec, execAux, execOp, runOps, lookupS, lookupF, setS,
      setF, ifExample1, resultScope]

/-- Witness for C3: `y` pre-exists with value `0`; the then-branch copies
`one` into it; the outer workspace reads `1` afterwards. -/
theorem c3_witness :
    runOps [Op.gt "one" "y" "c"] [[("y", 0), ("one", 1)]] =
      .ok ([[("c", 1), ("y", 0), ("one", 1)]], [Event.op (.cmpE "c")]) ∧
    lookupS "c" [[("c", 1), ("y", 0), ("one", 1)]] = some 1 ∧
    (1 : ℚ) ≠ 0 ∧
    exec 1 (.prim (.copy "one" "y")) ([] :: [[("c", 1), ("y", 0), ("one", 1)]]) =
      .ok ([[], [("c", 1), ("y", 1), ("one", 1)]],
        [Event.op (.copyE "one" "y")]) ∧
    lookupS "y" [[("c", 1), ("y", 0), ("one", 1)]] = some 0 ∧
    (exec 1 (.ifNet [Op.gt "one" "y" "c"] "c" (.prim (.copy "one" "y")) none)
        [[("y", 0), ("one", 1)]] =
      .ok ([[("c", 1), ("y", 1), ("one", 1)]],
        [Event.op (.cmpE "c"), Event.thenTaken, Event.op (.copyE "one" "y")])) ∧
    lookupS "y" [[("c", 1), ("y", 1), ("one", 1)]] =
      lookupS "y" [[], [("c", 1), ("y", 1), ("one", 1)]] :=
  ⟨by norm_num +decide [runOps, execOp, lookupS, lookupF, setS, setF],
   by norm_num +decide [lookupS, lookupF],
   by norm_num,
   by norm_num +decide [exec, execAux, execOp, lookupS, lookupF, setS, setF],
   by norm_num +decide [lookupS, lookupF],
   (c3_external_write_through 0 [Op.gt "one" "y" "c"] "c"
      (.prim (.copy "one" "y")) none [[("y", 0), ("one", 1)]]
      [[("c", 1), ("y", 0), ("one", 1)]] [[], [("c", 1), ("y", 1), ("one", 1)]]
      [Event.op (.cmpE "c")] [Event.op (.copyE "one" "y")] 1 0 "y"
      (by norm_num +decide [runOps, execOp, lookupS, lookupF, setS, setF])
      (by norm_num +decide [lookupS, lookupF])
      (by norm_num)
      (by norm_num +decide [exec, execAux, execOp, lookupS, lookupF, setS, setF])
      (by norm_num +decide [lookupS, lookupF])).1,
   (c3_external_write_through 0 [Op.gt "one" "y" "c"] "c"
      (.prim (.copy "one" "y")) none [[("y", 0), ("one", 1)]]
      [[("c", 1), ("y", 0), ("one", 1)]] [[], [("c", 1), ("y", 1), ("one", 1)]]
      [Event.op (.cmpE "c")] [Event.op (.copyE "one" "y")] 1 0 "y"
      (by norm_num +decide [runOps, execOp, lookupS, lookupF, setS, setF])
      (by norm_num +decide [lookupS, lookupF])
      (by norm_num)
      (by norm_num +decide [exec, execAux, execOp, lookupS, lookupF, setS, setF])
      (by norm_num +decide [lookupS, lookupF])).2.1⟩

/-- C4: the Loop Executor on the notebook's loop (condition: increment
`i`, continue while `i ≤ 7`; body: `y := i + y`) starting from `i = 0`,
`y = 0` terminates with `i = 8` and `y = 28` in the enclosing scope, the
body having executed exactly 7 times. -/
theorem c4_loop_example :
    isOk (exec 20 whileExample [[]]) = true ∧
    lookupS "i" (resultScope (exec 20 whileExample [[]])) = some 8 ∧
    lookupS "y" (resultScope (exec 20 whileExample [[]])) = some 28 ∧
    countEvt isIter (resultTrace (exec 20 whileExample [[]])) = 7 := by
  refine ⟨?_, ?_, ?_, ?_⟩ <;>
    norm_num +decide [exec, execAux, execOp, runOps, lookupS, lookupF, setS,
      setF, whileExample, resultScope, resultTrace, isOk, countEvt, isIter,
      List.filter]

/-- C5: every condition evaluation precedes the body iteration it gates:
globally, a trace never contains more iteration starts than true condition
evaluations; and a loop run decomposes as condition evaluation first
(whose mutations persist, the body and the continuation running from the
post-condition state), then — only if the condition was true — one body
iteration followed by the rest of the loop. -/
theorem c5_condition_gates_body :
    (∀ (fuel : ℕ) (st : Stmt) (σ σr : Scopes) (tr : List Event),
        exec fuel st σ = .ok (σr, tr) →
        countEvt isIter tr ≤ countEvt isCondTrue tr) ∧
    (∀ (fuel : ℕ) (co : List Op) (cb : String) (body : Stmt)
        (σ σr : Scopes) (tr : List Event),
        exec (fuel + 1) (.whileNet co cb body) σ = .ok (σr, tr) →
        ∃ σc tc c, runOps co ([] :: σ) = .ok (σc, tc) ∧
          lookupS cb σc = some c ∧
          ((c = 0 ∧ σr = σc.tail ∧ tr = tc ++ [Event.condFalse]) ∨
           (c ≠ 0 ∧ ∃ σb tb tr2,
             exec (fuel + 1) body ([] :: σc.tail) = .ok (σb, tb) ∧
             exec fuel (.whileNet co cb body) σb.tail = .ok (σr, tr2) ∧
             tr = tc ++ Event.condTrue :: Event.iterStart :: tb ++ tr2))) := by
  constructor
  · exact exec_count
  · intro fuel co cb body σ σr tr h
    simp only [exec, execAux] at h
    cases hco : runOps co ([] :: σ) with
    | error e => simp [hco] at h
    | ok p =>
      obtain ⟨σc, tc⟩ := p
      simp only [hco] at h
      cases hcb : lookupS cb σc with
      | none => simp [hcb] at h
      | some c =>
        simp only [hcb] at h
        refine ⟨σc, tc, c, rfl, hcb, ?_⟩
        by_cases hc : c ≠ 0
        · rw [if_pos hc] at h
          cases hb : execAux (exec fuel) body ([] :: σc.tail) with
          | error e => simp [hb] at h
          | ok q =>
            obtain ⟨σb, tb⟩ := q
            simp only [hb] at h
            cases hr : exec fuel (.whileNet co cb body) σb.tail with
            | error e => simp [hr] at h
            | ok r =>
              obtain ⟨σr2, tr2⟩ := r
              simp only [hr] at h
              injection h with h1
              injection h1 with hσ' htr'
              right
              rw [hσ'] at hr
              exact ⟨hc, σb, tb, tr2, hb, hr, htr'.symm⟩
        · rw [if_neg hc] at h
          injection h with h1
          injection h1 with hσ' htr'
          exact Or.inl ⟨not_not.mp hc, hσ'.symm, htr'.symm⟩

/-- Witness for C5 on a one-iteration loop: the condition (increment `i`,
continue while `i ≤ 1`) evaluates true once, gating one body iteration,
and false the second time, and its mutation of `i` persists (`i = 2`
after exit). -/
theorem c5_witness :
    exec 3 (.whileNet [Op.const 1 "t1", Op.add "i" "t1" "i",
        Op.le "i" "t1" "lc"] "lc" .skip) [[("i", 0)]] =
      .ok ([[("i", 2)]],
        [Event.op (.constE "t1"), Event.op (.addE "i" "t1" "i"),
         Event.op (.cmpE "lc"), Event.condTrue, Event.iterStart,
         Event.op (.constE "t1"), Event.op (.addE "i" "t1" "i"),
         Event.op (.cmpE "lc"), Event.condFalse]) ∧
    (∃ σc tc c,
      runOps [Op.const 1 "t1", Op.add "i" "t1" "i", Op.le "i" "t1" "lc"]
          ([] :: [[("i", 0)]]) = .ok (σc, tc) ∧
      lookupS "lc" σc = some c ∧
      ((c = 0 ∧ [[("i", 2)]] = σc.tail ∧
        [Event.op (.constE "t1"), Event.op (.addE "i" "t1" "i"),
         Event.op (.cmpE "lc"), Event.condTrue, Event.iterStart,
         Event.op (.constE "t1"), Event.op (.addE "i" "t1" "i"),
         Event.op (.cmpE "lc"), Event.condFalse] = tc ++ [Event.condFalse]) ∨
       (c ≠ 0 ∧ ∃ σb tb tr2,
         exec 3 .skip ([] :: σc.tail) = .ok (σb, tb) ∧
         exec 2 (.whileNet [Op.const 1 "t1", Op.add "i" "t1" "i",
            Op.le "i" "t1" "lc"] "lc" .skip) σb.tail = .ok ([[("i", 2)]], tr2) ∧
         [Event.op (.constE "t1"), Event.op (.addE "i" "t1" "i"),
          Event.op (.cmpE "lc"), Event.condTrue, Event.iterStart,
          Event.op (.constE "t1"), Event.op (.addE "i" "t1" "i"),
          Event.op (.cmpE "lc"), Event.condFalse] =
           tc ++ Event.condTrue :: Event.iterStart :: tb ++ tr2))) :=
  ⟨by norm_num +decide [exec, execAux, execOp, runOps, lookupS, lookupF, setS,
      setF],
   c5_condition_gates_body.2 2
     [Op.const 1 "t1", Op.add "i" "t1" "i", Op.le "i" "t1" "lc"] "lc" .skip
     [[("i", 0)]] [[("i", 2)]]
     [Event.op (.constE "t1"), Event.op (.addE "i" "t1" "i"),
      Event.op (.cmpE "lc"), Event.condTrue, Event.iterStart,
      Event.op (.constE "t1"), Event.op (.addE "i" "t1" "i"),
      Event.op (.cmpE "lc"), Event.condFalse]
     (by norm_num +decide [exec, execAux, execOp, runOps, lookupS, lookupF,
       setS, setF])⟩

/-- C6: for `z = y^2` when `x > 0` else `z = y^3` with `y = 4`: the run
with `x = 0.5` yields `z = 16` and `dz/dy = 8`; the run with `x = -0.5`
yields `z = 64` and `dz/dy = 48`; in each case the tape — which the
Gradient Engine replays backward — holds only the power operator of the
branch actually taken, so only that branch runs backward and the untaken
branch contributes nothing. -/
theorem c6_conditional_gradient :
    isOk (exec 3 gradIfProgram (gradIfStore (1/2))) = true ∧
    lookupS "z" (resultScope (exec 3 gradIfProgram (gradIfStore (1/2)))) =
      some 16 ∧
    gradAt (exec 3 gradIfProgram (gradIfStore (1/2))) "z" "y" = 8 ∧
    powEntries (tapeOf (resultTrace (exec 3 gradIfProgram (gradIfStore (1/2))))) =
      [("y", 2, 4)] ∧
    isOk (exec 3 gradIfProgram (gradIfStore (-(1/2)))) = true ∧
    lookupS "z" (resultScope (exec 3 gradIfProgram (gradIfStore (-(1/2))))) =
      some 64 ∧
    gradAt (exec 3 gradIfProgram (gradIfStore (-(1/2)))) "z" "y" = 48 ∧
    powEntries (tapeOf (resultTrace (exec 3 gradIfProgram (gradIfStore (-(1/2)))))) =
      [("y", 3, 4)] := by
  refine ⟨?_, ?_, ?_, ?_, ?_, ?_, ?_, ?_⟩ <;>
    norm_num +decide [exec, execAux, execOp, runOps, lookupS, lookupF, setS,
      setF, gradIfProgram, gradIfStore, resultScope, resultTrace, isOk, gradAt,
      tapeOf, backprop, backStep, gradUpd, powEntries, List.filterMap]

/-- C7: for the loop squaring `x` twice (so `x ↦ x^4`), squaring `y` on
iteration 1 and cubing `z` on iteration 2, with `s = (x + y) + z`: the
gradients of `s` match the closed forms at the initial values — `x_grad =
4·2^3 = 32`, `y_grad = 2·3 = 6`, `z_grad = 3·2^2 = 12`; the tape records
one power step per forward iteration with that iteration's saved value
(`x` saved as 2 then 4), replayed in reverse by the backward fold. -/
theorem c7_loop_gradient :
    isOk (exec 9 gradLoopProgram gradLoopStore) = true ∧
    lookupS "x" (resultScope (exec 9 gradLoopProgram gradLoopStore)) =
      some 16 ∧
    lookupS "y" (resultScope (exec 9 gradLoopProgram gradLoopStore)) =
      some 9 ∧
    lookupS "z" (resultScope (exec 9 gradLoopProgram gradLoopStore)) =
      some 8 ∧
    lookupS "s" (resultScope (exec 9 gradLoopProgram gradLoopStore)) =
      some 33 ∧
    gradAt (exec 9 gradLoopProgram gradLoopStore) "s" "x" = 32 ∧
    gradAt (exec 9 gradLoopProgram gradLoopStore) "s" "y" = 6 ∧
    gradAt (exec 9 gradLoopProgram gradLoopStore) "s" "z" = 12 ∧
    powEntries (tapeOf (resultTrace (exec 9 gradLoopProgram gradLoopStore))) =
      [("x", 2, 2), ("y", 2, 3), ("x", 2, 4), ("z", 3, 2)] := by
  refine ⟨?_, ?_, ?_, ?_, ?_, ?_, ?_, ?_, ?_⟩ <;>
    norm_num +decide [exec, execAux, execOp, runOps, lookupS, lookupF, setS,
      setF, gradLoopProgram, gradLoopStore, resultScope, resultTrace, isOk,
      gradAt, tapeOf, backprop, backStep, gradUpd, powEntries, List.filterMap]

/-- C8: reading a name not visible under the scoping rule is caught by
the construction-time static check: the cell-12 program with the
commented-out line restored (the else-branch reading the sibling
then-branch's `local_blob`) is rejected before any execution, even though
a run would not reach the bad read (the then-branch is taken); the
original program passes; a run that does reach an unbound read fails with
UndefinedInput at execution time; and the static check is sound — an
accepted program never raises UndefinedInput at runtime (any error is the
model's fuel bound). -/
theorem c8_undefined_input_static_check :
    checkStmt ifExample2bad [] = none ∧
    isOk (exec 5 ifExample2bad [[]]) = true ∧
    checkStmt ifExample2 [] = some ["cnd1", "y", "x", "two", "one", "zero"] ∧
    exec 1 (.prim (.copy "local_blob" "z")) [[]] =
      .error (.undefinedInput "local_blob") ∧
    (∀ (fuel : ℕ) (st : Stmt) (D D' : List String) (σ : Scopes),
      checkStmt st D = some D' → allBound D σ → σ ≠ [] →
      ∀ e, exec fuel st σ = .error e → e = Err.outOfFuel) := by
  refine ⟨?_, ?_, ?_, ?_, ?_⟩
  · norm_num +decide [checkStmt, checkOps, checkOp, insertName, ifExample2bad]
  · norm_num +decide [exec, execAux, execOp, runOps, lookupS, lookupF, setS,
      setF, ifExample2bad, isOk]
  · norm_num +decide [checkStmt, checkOps, checkOp, insertName, ifExample2]
  · norm_num +decide [exec, execAux, execOp, lookupS, lookupF]
  · intro fuel st D D' σ hck hD hσ e he
    exact (exec_check fuel st D D' σ hck hD hσ).1 e he

/-- Witness for C8's soundness component: a checked loop whose run stops
only because the model's fuel is exhausted reports `outOfFuel`, never
`undefinedInput`. -/
theorem c8_witness :
    checkStmt (.whileNet [Op.const 1 "c"] "c" .skip) [] = some [] ∧
    ([[]] : Scopes) ≠ [] ∧
    exec 0 (.whileNet [Op.const 1 "c"] "c" .skip) [[]] =
      .error .outOfFuel ∧
    Err.outOfFuel = Err.outOfFuel :=
  ⟨by norm_num +decide [checkStmt, checkOps, checkOp, insertName],
   by simp,
   rfl,
   c8_undefined_input_static_check.2.2.2.2 0
     (.whileNet [Op.const 1 "c"] "c" .skip) [] [] [[]]
     (by norm_num +decide [checkStmt, checkOps, checkOp, insertName])
     (fun n hn => absurd hn (List.not_mem_nil n))
     (by simp)
     .outOfFuel rfl⟩

/-- C9: the NetBuilder front-end (implicit block scoping) and the Brew
front-end (explicit `external_blobs` partition over `Do`-style inner
workspaces) agree observationally on the notebook's examples: the
conditional yields `y = 1` under both, and the loop yields `i = 8`,
`y = 28` under both. -/
theorem c9_front_ends_agree :
    lookupS "y" (resultScope (exec 2 ifExample1 [[]])) = some 1 ∧
    lookupS "y" (brewScope brewIfRun) = some 1 ∧
    lookupS "y" (resultScope (exec 2 ifExample1 [[]])) =
      lookupS "y" (brewScope brewIfRun) ∧
    lookupS "i" (resultScope (exec 20 whileExample [[]])) = some 8 ∧
    lookupS "y" (resultScope (exec 20 whileExample [[]])) = some 28 ∧
    lookupS "i" (brewScope brewWhileRun) = some 8 ∧
    lookupS "y" (brewScope brewWhileRun) = some 28 := by
  refine ⟨?_, ?_, ?_, ?_, ?_, ?_, ?_⟩ <;>
    norm_num +decide [exec, execAux, execOp, runOps, lookupS, lookupF, setS,
      setF, resultScope, ifExample1, whileExample, brewScope, brewIfRun,
      brewWhileRun, brewIfInitOps, brewWhileInitOps, brewCond, brewLoop,
      seedFrame, copyBackExternals]

/-- First run of the gradient conditional net, with `x` fed as `0.5`. -/
def gradIfRun1 : Except Err (Scopes × List Event) :=
  exec 3 gradIfProgram (gradIfStore (1/2))

/-- The workspace after the first run, with `x` re-fed as `-0.5` (all
other blobs keep whatever the first run left behind). -/
def gradIfRerunStore : Scopes :=
  setS "x" (-(1/2)) (resultScope gradIfRun1)

/-- Second run of the same net from the used workspace. -/
def gradIfRun2 : Except Err (Scopes × List Event) :=
  exec 3 gradIfProgram gradIfRerunStore

/-- A fresh run with `x = -0.5` on a clean workspace. -/
def gradIfFresh : Except Err (Scopes × List Event) :=
  exec 3 gradIfProgram (gradIfStore (-(1/2)))

/-- C10: a net built once is re-runnable and its observables are a
function of the fed inputs only: re-running the gradient conditional from
the used workspace with `x` re-fed as `-0.5` produces exactly the
else-branch results (`z = 64`, `y_grad = 48`), identical to a fresh run
with `x = -0.5`, even though the used workspace still holds residual
state from the first run (`z = 16`, `cnd = 1`). -/
theorem c10_rerun_deterministic :
    isOk gradIfRun1 = true ∧
    isOk gradIfRun2 = true ∧
    lookupS "z" (resultScope gradIfRun2) = some 64 ∧
    gradAt gradIfRun2 "z" "y" = 48 ∧
    lookupS "z" (resultScope gradIfRun2) =
      lookupS "z" (resultScope gradIfFresh) ∧
    gradAt gradIfRun2 "z" "y" = gradAt gradIfFresh "z" "y" ∧
    lookupS "z" gradIfRerunStore = some 16 ∧
    lookupS "z" (gradIfStore (-(1/2))) = some 0 := by
  refine ⟨?_, ?_, ?_, ?_, ?_, ?_, ?_, ?_⟩ <;>
    norm_num +decide [exec, execAux, execOp, runOps, lookupS, lookupF, setS,
      setF, gradIfProgram, gradIfStore, gradIfRun1, gradIfRun2, gradIfFresh,
      gradIfRerunStore, resultScope, resultTrace, isOk, gradAt, tapeOf,
      backprop, backStep, gradUpd, List.filterMap]

end ControlOps
